import Mathlib

/-!
Shallow embedding of `src/dsa/sparse_matrix/code/src/sparse_matrix.py`
(class `SparseMatrix`, dictionary-of-keys sparse matrix with a line-oriented
text persistence format).

Modelling conventions:
- Python `int` is `Int`; dimensions, coordinates and values are all `Int`.
- A Python `dict` keyed by `(row, col)` is an association list
  `List ((Int × Int) × Int)` in insertion order, with the Python dict
  operations `d[k]`, `d[k] = v` (in-place update or append) and `del d[k]`
  modelled by `alGet`, `alSet`, `alDel`.
- A method that can `raise ValueError(msg)` returns `Except (List Char) α`,
  the error payload being exactly the message string the Python code builds.
- A text file is modelled as its list of lines, each a `List Char` without
  the trailing newline (the code reads line by line and `strip()`s each).
-/

deriving instance DecidableEq for Except

/-- Python `d.get(k)` on a dict modelled as an insertion-ordered association
list: the value at the first (unique) occurrence of the key. -/
def alGet {κ α : Type} [DecidableEq κ] : List (κ × α) → κ → Option α
  | [], _ => none
  | (k, v) :: rest, key => if k = key then some v else alGet rest key

/-- Python `d[k] = v`: update the existing entry in place, or append a new
entry at the end (Python dicts preserve insertion order). -/
def alSet {κ α : Type} [DecidableEq κ] : List (κ × α) → κ → α → List (κ × α)
  | [], key, v => [(key, v)]
  | (k, w) :: rest, key, v =>
    if k = key then (k, v) :: rest else (k, w) :: alSet rest key v

/-- Python `del d[k]` (for a dict the key occurs at most once): remove the
first entry with the given key, if any. -/
def alDel {κ α : Type} [DecidableEq κ] : List (κ × α) → κ → List (κ × α)
  | [], _ => []
  | (k, w) :: rest, key => if k = key then rest else (k, w) :: alDel rest key

/-- The `SparseMatrix` class: dimensions plus the dict of non-zero elements. -/
structure SparseMatrix where
  rows : Int
  cols : Int
  elements : List ((Int × Int) × Int)
deriving DecidableEq, Repr

/-- The value the matrix holds at a coordinate: the stored entry, or 0 when
absent (semantic reading of the element dict, used throughout the proofs). -/
def SparseMatrix.val (m : SparseMatrix) (r c : Int) : Int :=
  (alGet m.elements (r, c)).getD 0

/-- The list of stored coordinates (dict keys). -/
def SparseMatrix.keys (m : SparseMatrix) : List (Int × Int) :=
  m.elements.map Prod.fst

/-- Representation invariant of the class: non-negative dimensions, every
stored key in bounds, no stored zero value, and (as for any Python dict)
no duplicate keys. -/
def SparseMatrix.Wf (m : SparseMatrix) : Prop :=
  0 ≤ m.rows ∧ 0 ≤ m.cols ∧
  (∀ p ∈ m.elements,
    0 ≤ p.1.1 ∧ p.1.1 < m.rows ∧ 0 ≤ p.1.2 ∧ p.1.2 < m.cols ∧ p.2 ≠ 0) ∧
  m.keys.Nodup

instance (m : SparseMatrix) : Decidable m.Wf := by
  unfold SparseMatrix.Wf; infer_instance

/-- Decimal digit characters, as Python `str` renders them. -/
def digitChar (d : Nat) : Char :=
  match d with
  | 0 => '0' | 1 => '1' | 2 => '2' | 3 => '3' | 4 => '4'
  | 5 => '5' | 6 => '6' | 7 => '7' | 8 => '8' | _ => '9'

/-- Fuel-driven digit rendering; the fuel (any bound above the value) only
serves structural recursion and never runs out when called from
`natToChars`. -/
def natToCharsAux : Nat → Nat → List Char
  | _, 0 => []
  | n, fuel + 1 =>
    if n < 10 then [digitChar n]
    else natToCharsAux (n / 10) fuel ++ [digitChar (n % 10)]

/-- Python `str(n)` for a non-negative integer: big-endian decimal digits,
no leading zeros (just "0" for zero). -/
def natToChars (n : Nat) : List Char := natToCharsAux n (n + 1)

/-- Python `str(n)` for an integer: minus sign then digits when negative. -/
def intToChars : Int → List Char
  | Int.ofNat n => natToChars n
  | Int.negSucc n => '-' :: natToChars (n + 1)

/-- The message `_validate_indices` builds for out-of-bounds indices. -/
def SparseMatrix.idxMsg (m : SparseMatrix) (row col : Int) : List Char :=
  "Invalid indices: (".data ++ intToChars row ++ ", ".data ++ intToChars col
    ++ ") - Must be within bounds [0,".data ++ intToChars (m.rows - 1)
    ++ "] x [0,".data ++ intToChars (m.cols - 1) ++ "]".data

/-- The bounds test of `_validate_indices`:
`0 <= row < self.rows and 0 <= col < self.cols`. -/
def SparseMatrix.validIndices (m : SparseMatrix) (row col : Int) : Bool :=
  (0 ≤ row && row < m.rows) && (0 ≤ col && col < m.cols)

/-- `get_element`: validate indices, then `self.elements.get((row, col), 0)`. -/
def SparseMatrix.get_element (m : SparseMatrix) (row col : Int) :
    Except (List Char) Int :=
  if m.validIndices row col then
    Except.ok ((alGet m.elements (row, col)).getD 0)
  else
    Except.error (m.idxMsg row col)

/-- `set_element`: validate indices; store a non-zero value, delete the key
for value 0 (`del` only when present — `alDel` on an absent key is the
identity, matching the `elif` guard). -/
def SparseMatrix.set_element (m : SparseMatrix) (row col value : Int) :
    Except (List Char) SparseMatrix :=
  if m.validIndices row col then
    if value ≠ 0 then
      Except.ok { m with elements := alSet m.elements (row, col) value }
    else
      Except.ok { m with elements := alDel m.elements (row, col) }
  else
    Except.error (m.idxMsg row col)

/-- Dimension-only construction (`SparseMatrix(num_rows=r, num_cols=c)`):
negative dimensions raise, otherwise an empty matrix. -/
def SparseMatrix.construct (num_rows num_cols : Int) :
    Except (List Char) SparseMatrix :=
  if num_rows < 0 ∨ num_cols < 0 then
    Except.error "Matrix dimensions cannot be negative".data
  else
    Except.ok ⟨num_rows, num_cols, []⟩

/-- The first loop of `add`/`subtract`: copy every entry of the first operand
into the freshly built result via `set_element`; an error propagates. -/
def SparseMatrix.copyLoop (res : SparseMatrix) :
    List ((Int × Int) × Int) → Except (List Char) SparseMatrix
  | [] => Except.ok res
  | ((r, c), v) :: rest =>
    match res.set_element r c v with
    | Except.ok res2 => res2.copyLoop rest
    | Except.error e => Except.error e

/-- The second loop of `add`/`subtract`: for each entry of the second
operand, read the result's current value and store `f current value`
(`f` is `+` in `add` and `-` in `subtract`). -/
def SparseMatrix.mergeLoop (f : Int → Int → Int) (res : SparseMatrix) :
    List ((Int × Int) × Int) → Except (List Char) SparseMatrix
  | [] => Except.ok res
  | ((r, c), v) :: rest =>
    match res.get_element r c with
    | Except.ok current =>
      match res.set_element r c (f current v) with
      | Except.ok res2 => SparseMatrix.mergeLoop f res2 rest
      | Except.error e => Except.error e
    | Except.error e => Except.error e

/-- `add`: dimension check, then the copy loop and the accumulate loop. -/
def SparseMatrix.add (m other : SparseMatrix) :
    Except (List Char) SparseMatrix :=
  if m.rows ≠ other.rows ∨ m.cols ≠ other.cols then
    Except.error ("Matrix dimensions must match for addition: (".data
      ++ intToChars m.rows ++ ", ".data ++ intToChars m.cols ++ ") != (".data
      ++ intToChars other.rows ++ ", ".data ++ intToChars other.cols
      ++ ")".data)
  else
    match SparseMatrix.copyLoop ⟨m.rows, m.cols, []⟩ m.elements with
    | Except.ok res1 =>
      SparseMatrix.mergeLoop (fun current value => current + value) res1
        other.elements
    | Except.error e => Except.error e

/-- `subtract`: same structure as `add`, subtracting the second operand's
contribution. -/
def SparseMatrix.subtract (m other : SparseMatrix) :
    Except (List Char) SparseMatrix :=
  if m.rows ≠ other.rows ∨ m.cols ≠ other.cols then
    Except.error ("Matrix dimensions must match for subtraction: (".data
      ++ intToChars m.rows ++ ", ".data ++ intToChars m.cols ++ ") != (".data
      ++ intToChars other.rows ++ ", ".data ++ intToChars other.cols
      ++ ")".data)
  else
    match SparseMatrix.copyLoop ⟨m.rows, m.cols, []⟩ m.elements with
    | Except.ok res1 =>
      SparseMatrix.mergeLoop (fun current value => current - value) res1
        other.elements
    | Except.error e => Except.error e

/-- `multiply`'s first grouping pass: organize the first matrix by rows
(`self_rows[row][col] = value`, rows and columns in first-seen order). -/
def groupRows (els : List ((Int × Int) × Int)) :
    List (Int × List (Int × Int)) :=
  els.foldl (fun acc p =>
    alSet acc p.1.1 (alSet ((alGet acc p.1.1).getD []) p.1.2 p.2)) []

/-- `multiply`'s second grouping pass: organize the second matrix by columns
(`other_cols[col][row] = value`). -/
def groupCols (els : List ((Int × Int) × Int)) :
    List (Int × List (Int × Int)) :=
  els.foldl (fun acc p =>
    alSet acc p.1.2 (alSet ((alGet acc p.1.2).getD []) p.1.1 p.2)) []

/-- The inner sum of `multiply`: over the keys `k` of row `i`, add
`self_rows[i][k] * other_cols[j][k]` whenever `k` is a key of column `j`. -/
def dotList (rowi colj : List (Int × Int)) : Int :=
  rowi.foldl (fun acc kv =>
    match alGet colj kv.1 with
    | some bv => acc + kv.2 * bv
    | none => acc) 0

/-- The inner loop of `multiply` over the occupied columns `j` of the second
operand: store each non-zero dot product via `set_element`. -/
def SparseMatrix.mulInner (res : SparseMatrix) (i : Int)
    (rowi : List (Int × Int)) :
    List (Int × List (Int × Int)) → Except (List Char) SparseMatrix
  | [] => Except.ok res
  | (j, colj) :: rest =>
    if dotList rowi colj ≠ 0 then
      match res.set_element i j (dotList rowi colj) with
      | Except.ok res2 => SparseMatrix.mulInner res2 i rowi rest
      | Except.error e => Except.error e
    else SparseMatrix.mulInner res i rowi rest

/-- The outer loop of `multiply` over the occupied rows `i` of the first
operand. -/
def SparseMatrix.mulOuter (res : SparseMatrix)
    (ocols : List (Int × List (Int × Int))) :
    List (Int × List (Int × Int)) → Except (List Char) SparseMatrix
  | [] => Except.ok res
  | (i, rowi) :: rest =>
    match SparseMatrix.mulInner res i rowi ocols with
    | Except.ok res2 => SparseMatrix.mulOuter res2 ocols rest
    | Except.error e => Except.error e

/-- `multiply`: dimension check, group both operands, then the nested loop
over occupied rows and occupied columns. -/
def SparseMatrix.multiply (m other : SparseMatrix) :
    Except (List Char) SparseMatrix :=
  if m.cols ≠ other.rows then
    Except.error
      ("Invalid dimensions for multiplication: Matrix 1 columns (".data
        ++ intToChars m.cols ++ ") must equal Matrix 2 rows (".data
        ++ intToChars other.rows ++ ")".data)
  else
    SparseMatrix.mulOuter ⟨m.rows, other.cols, []⟩
      (groupCols other.elements) (groupRows m.elements)

/-- Mathematical dot product of row `i` of `a` with column `j` of `b` over
every inner index `k` in `[0, a.cols)`, absent entries reading as 0 — the
reference value for multiplication correctness. -/
def dotProd (a b : SparseMatrix) (i j : Int) : Int :=
  ((List.range a.cols.toNat).map
    (fun k : Nat => a.val i (k : Int) * b.val (k : Int) j)).sum

/-- Python tuple ordering on dict items `((row, col), value)`, as used by
`sorted(self.elements.items())` in `save_to_file`. -/
def entryLE (x y : (Int × Int) × Int) : Bool :=
  decide (x.1.1 < y.1.1 ∨ (x.1.1 = y.1.1 ∧
    (x.1.2 < y.1.2 ∨ (x.1.2 = y.1.2 ∧ x.2 ≤ y.2))))

/-- The element line `save_to_file` writes for one dict item:
`f"({row}, {col}, {value})"`. -/
def fmtEntry (p : (Int × Int) × Int) : List Char :=
  "(".data ++ intToChars p.1.1 ++ ", ".data ++ intToChars p.1.2
    ++ ", ".data ++ intToChars p.2 ++ ")".data

/-- `save_to_file`, modelled as the list of lines written: the two header
lines, then one `(row, col, value)` line per entry of
`sorted(self.elements.items())`. -/
def SparseMatrix.saveLines (m : SparseMatrix) : List (List Char) :=
  ("rows=".data ++ intToChars m.rows)
    :: ("cols=".data ++ intToChars m.cols)
    :: (m.elements.mergeSort entryLE).map fmtEntry

/-- ASCII whitespace, as stripped by Python `str.strip()`. -/
def isPySpace (c : Char) : Bool :=
  c == ' ' || c == '\t' || c == '\n' || c == '\r'
    || c == '\x0b' || c == '\x0c'

/-- Drop leading whitespace. -/
def dropLeadingWs : List Char → List Char
  | [] => []
  | c :: rest => if isPySpace c then dropLeadingWs rest else c :: rest

/-- Python `str.strip()`: drop trailing then leading whitespace. -/
def stripWs (cs : List Char) : List Char :=
  dropLeadingWs (dropLeadingWs cs.reverse).reverse

/-- The numeric value of an ASCII digit character, if it is one. -/
def charDigit? (c : Char) : Option Nat :=
  if 48 ≤ c.toNat ∧ c.toNat ≤ 57 then some (c.toNat - 48) else none

/-- Accumulate a decimal value left to right; fail on a non-digit. -/
def digitsVal : List Char → Nat → Option Nat
  | [], acc => some acc
  | c :: cs, acc =>
    match charDigit? c with
    | some d => digitsVal cs (acc * 10 + d)
    | none => none

/-- A non-empty all-digit string's value. -/
def parseDigits : List Char → Option Nat
  | [] => none
  | c :: cs => digitsVal (c :: cs) 0

/-- Python `int(s)` restricted to the decimal grammar the repository's
format uses: optional surrounding whitespace, an optional single sign, then
one or more ASCII digits. -/
def parsePyInt (cs : List Char) : Option Int :=
  match stripWs cs with
  | [] => none
  | c :: rest =>
    if c = '-' then (parseDigits rest).map (fun n => -(n : Int))
    else if c = '+' then (parseDigits rest).map (fun n => (n : Int))
    else (parseDigits (c :: rest)).map (fun n => (n : Int))

/-- Python `line.replace(' ', '')`: remove every space character. -/
def removeSpaces : List Char → List Char
  | [] => []
  | c :: rest => if c = ' ' then removeSpaces rest else c :: removeSpaces rest

/-- Python `s.split(',')`: split on commas, `''` giving `['']`. -/
def splitOnComma : List Char → List (List Char)
  | [] => [[]]
  | c :: rest =>
    if c = ',' then [] :: splitOnComma rest
    else
      match splitOnComma rest with
      | [] => [[c]]
      | g :: gs => (c :: g) :: gs

/-- Does the first list start with the second? -/
def startsWith : List Char → List Char → Bool
  | _, [] => true
  | [], _ :: _ => false
  | c :: cs, p :: ps => c == p && startsWith cs ps

/-- `row, col, value = map(int, content.split(','))`: exactly three
comma-separated integer tokens; any other shape raises `ValueError`. -/
def parseEntry (content : List Char) : Option (Int × Int × Int) :=
  match splitOnComma content with
  | [a, b, c] =>
    match parsePyInt a, parsePyInt b, parsePyInt c with
    | some row, some col, some v => some (row, col, v)
    | _, _, _ => none
  | _ => none

/-- The element-reading loop of `_load_from_file`: lines enumerated from 3,
blank lines skipped after stripping, the parenthesis-wrapping check, then
inside a `try`: strip internal spaces, parse the three comma-separated
integers, bounds-check, `set_element`. Any `ValueError` raised inside the
`try` (non-integer token, wrong token count, or the out-of-bounds error with
its bounds text) is caught and re-raised as the generic
`Invalid number format at line N: LINE` message. -/
def SparseMatrix.loadElems (m : SparseMatrix) (lineNum : Nat) :
    List (List Char) → Except (List Char) SparseMatrix
  | [] => Except.ok m
  | l :: rest =>
    let line := stripWs l
    if line = [] then m.loadElems (lineNum + 1) rest
    else if !(startsWith line "(".data && startsWith line.reverse ")".data)
    then
      Except.error ("Invalid element format at line ".data
        ++ natToChars lineNum ++ ": ".data ++ line)
    else
      match parseEntry (removeSpaces line.tail.dropLast) with
      | some (row, col, v) =>
        if 0 ≤ row ∧ row < m.rows ∧ 0 ≤ col ∧ col < m.cols then
          match m.set_element row col v with
          | Except.ok m2 => m2.loadElems (lineNum + 1) rest
          | Except.error _ =>
            Except.error ("Invalid number format at line ".data
              ++ natToChars lineNum ++ ": ".data ++ line)
        else
          Except.error ("Invalid number format at line ".data
            ++ natToChars lineNum ++ ": ".data ++ line)
      | none =>
        Except.error ("Invalid number format at line ".data
          ++ natToChars lineNum ++ ": ".data ++ line)

/-- `_load_from_file` on the file's lines: read and strip the two header
lines (a missing line reads as the empty string), check the
`rows=`/`cols=` markers, parse the dimensions (any failure there, including
the negative-dimension `ValueError`, surfaces as the generic dimension
error via the `except ValueError` clause), then run the element loop
starting at line number 3. -/
def loadFromLines (lines : List (List Char)) :
    Except (List Char) SparseMatrix :=
  let rows_line := stripWs (lines.getD 0 [])
  let cols_line := stripWs (lines.getD 1 [])
  if !(startsWith rows_line "rows=".data)
      || !(startsWith cols_line "cols=".data) then
    Except.error "Input file has wrong format: Missing rows/cols headers".data
  else
    match parsePyInt (rows_line.drop 5), parsePyInt (cols_line.drop 5) with
    | some r, some c =>
      if r < 0 ∨ c < 0 then
        Except.error "Invalid dimensions in input file".data
      else
        SparseMatrix.loadElems ⟨r, c, []⟩ 3 (lines.drop 2)
    | _, _ => Except.error "Invalid dimensions in input file".data

/-- `get_density`: `len(self.elements) / (rows * cols)` with the explicit
zero-total guard; Python float division is modelled as exact division
in `ℚ`. -/
def SparseMatrix.get_density (m : SparseMatrix) : ℚ :=
  if m.rows * m.cols = 0 then 0
  else (m.elements.length : ℚ) / ((m.rows * m.cols : Int) : ℚ)

/-- The dictionary `get_statistics` returns, as a structure. -/
structure MatrixStats where
  dimensions : Int × Int
  non_zero_elements : Nat
  density : ℚ
  min_value : Option Int
  max_value : Option Int
  total_elements : Int
deriving DecidableEq, Repr

/-- Python `min(values)` for a non-empty list. -/
def listMin : List Int → Option Int
  | [] => none
  | v :: vs => some (vs.foldl min v)

/-- Python `max(values)` for a non-empty list. -/
def listMax : List Int → Option Int
  | [] => none
  | v :: vs => some (vs.foldl max v)

/-- `get_statistics`: the all-defaults dictionary when `elements` is empty,
otherwise counts, density and min/max over the stored values. -/
def SparseMatrix.get_statistics (m : SparseMatrix) : MatrixStats :=
  if m.elements = [] then
    ⟨(m.rows, m.cols), 0, 0, none, none, m.rows * m.cols⟩
  else
    ⟨(m.rows, m.cols), m.elements.length, m.get_density,
      listMin (m.elements.map Prod.snd), listMax (m.elements.map Prod.snd),
      m.rows * m.cols⟩

/-! ### Association-list lemmas (Python dict semantics) -/

theorem alGet_nil {κ α : Type} [DecidableEq κ] (k : κ) :
    alGet ([] : List (κ × α)) k = none := rfl

theorem alGet_cons {κ α : Type} [DecidableEq κ] (p : κ × α)
    (l : List (κ × α)) (k : κ) :
    alGet (p :: l) k = if p.1 = k then some p.2 else alGet l k := rfl

theorem alGet_append {κ α : Type} [DecidableEq κ] (l1 l2 : List (κ × α))
    (k : κ) :
    alGet (l1 ++ l2) k =
      match alGet l1 k with
      | some v => some v
      | none => alGet l2 k := by
  induction l1 with
  | nil => simp [alGet]
  | cons p rest ih =>
    obtain ⟨pk, pv⟩ := p
    by_cases h : pk = k <;> simp [alGet, h, ih]

theorem alGet_alSet {κ α : Type} [DecidableEq κ] (l : List (κ × α))
    (k k' : κ) (v : α) :
    alGet (alSet l k v) k' = if k = k' then some v else alGet l k' := by
  induction l with
  | nil => simp [alSet, alGet]
  | cons p rest ih =>
    obtain ⟨pk, pv⟩ := p
    by_cases h : pk = k
    · subst h
      by_cases h2 : pk = k' <;> simp [alSet, alGet, h2]
    · by_cases h2 : pk = k'
      · subst h2
        have hkk : ¬k = pk := fun he => h he.symm
        simp [alSet, alGet, h, hkk, ih]
      · simp [alSet, alGet, h, h2, ih]

theorem keys_alSet {κ α : Type} [DecidableEq κ] (l : List (κ × α))
    (k : κ) (v : α) :
    (alSet l k v).map Prod.fst =
      if k ∈ l.map Prod.fst then l.map Prod.fst
      else l.map Prod.fst ++ [k] := by
  induction l with
  | nil => simp [alSet]
  | cons p rest ih =>
    obtain ⟨pk, pv⟩ := p
    by_cases h : pk = k
    · subst h; simp [alSet]
    · have hkp : ¬k = pk := fun he => h he.symm
      by_cases h2 : k ∈ rest.map Prod.fst <;>
        simp [alSet, h, ih, h2, hkp]

theorem nodup_keys_alSet {κ α : Type} [DecidableEq κ] (l : List (κ × α))
    (k : κ) (v : α) (h : (l.map Prod.fst).Nodup) :
    ((alSet l k v).map Prod.fst).Nodup := by
  rw [keys_alSet]
  by_cases hm : k ∈ l.map Prod.fst
  · simpa [hm] using h
  · simp only [hm, if_false]
    simp [List.nodup_append, h, hm]

theorem mem_alSet {κ α : Type} [DecidableEq κ] (l : List (κ × α))
    (k : κ) (v : α) (p : κ × α) (hp : p ∈ alSet l k v) :
    p ∈ l ∨ p = (k, v) := by
  induction l with
  | nil => simp [alSet] at hp; simp [hp]
  | cons q rest ih =>
    obtain ⟨qk, qv⟩ := q
    by_cases h : qk = k
    · subst h
      simp [alSet] at hp
      rcases hp with hp | hp
      · right; simp [hp]
      · left; simp [hp]
    · simp [alSet, h] at hp
      rcases hp with hp | hp
      · left; simp [hp]
      · rcases ih hp with h1 | h1
        · left; simp [h1]
        · right; exact h1

theorem alDel_sublist {κ α : Type} [DecidableEq κ] (l : List (κ × α))
    (k : κ) : (alDel l k).Sublist l := by
  induction l with
  | nil => simp [alDel]
  | cons p rest ih =>
    obtain ⟨pk, pv⟩ := p
    by_cases h : pk = k
    · simp only [alDel, if_pos h]
      exact List.sublist_cons_self (pk, pv) rest
    · simpa [alDel, h] using ih.cons₂ (pk, pv)

theorem mem_alDel {κ α : Type} [DecidableEq κ] (l : List (κ × α))
    (k : κ) (p : κ × α) (hp : p ∈ alDel l k) : p ∈ l :=
  (alDel_sublist l k).mem hp

theorem nodup_keys_alDel {κ α : Type} [DecidableEq κ] (l : List (κ × α))
    (k : κ) (h : (l.map Prod.fst).Nodup) :
    ((alDel l k).map Prod.fst).Nodup :=
  ((alDel_sublist l k).map Prod.fst).nodup h

theorem alGet_eq_none_iff {κ α : Type} [DecidableEq κ] (l : List (κ × α))
    (k : κ) : alGet l k = none ↔ k ∉ l.map Prod.fst := by
  induction l with
  | nil => simp [alGet]
  | cons p rest ih =>
    obtain ⟨pk, pv⟩ := p
    by_cases h : pk = k
    · simp [alGet, h]
    · have hk : ¬k = pk := fun he => h he.symm
      simp [alGet, h, ih, hk]

theorem not_mem_keys_of_forall {κ α : Type} [DecidableEq κ] (pk : κ)
    (rest : List (κ × α)) (h : ∀ x : α, (pk, x) ∉ rest) :
    pk ∉ rest.map Prod.fst := by
  intro hm
  rcases List.mem_map.1 hm with ⟨q, hq, hqk⟩
  apply h q.2
  have hq2 : q = (pk, q.2) := by
    obtain ⟨q1, q2⟩ := q
    simp at hqk
    simp [hqk]
  rwa [hq2] at hq

theorem mem_of_alGet_eq_some {κ α : Type} [DecidableEq κ]
    (l : List (κ × α)) (k : κ) (v : α) (h : alGet l k = some v) :
    (k, v) ∈ l := by
  induction l with
  | nil => simp [alGet] at h
  | cons p rest ih =>
    obtain ⟨pk, pv⟩ := p
    by_cases hk : pk = k
    · subst hk
      simp [alGet] at h
      simp [h]
    · simp [alGet, hk] at h
      simp [ih h]

theorem alGet_eq_some_of_mem {κ α : Type} [DecidableEq κ]
    (l : List (κ × α)) (k : κ) (v : α) (hnd : (l.map Prod.fst).Nodup)
    (h : (k, v) ∈ l) : alGet l k = some v := by
  induction l with
  | nil => simp at h
  | cons p rest ih =>
    obtain ⟨pk, pv⟩ := p
    simp at h hnd
    rcases h with ⟨h1, h2⟩ | h
    · subst h1; subst h2; simp [alGet]
    · have hk : ¬pk = k := by
        intro he
        subst he
        exact hnd.1 v h
      simp [alGet, hk, ih hnd.2 h]

theorem alGet_alDel {κ α : Type} [DecidableEq κ] (l : List (κ × α))
    (k k' : κ) (hnd : (l.map Prod.fst).Nodup) :
    alGet (alDel l k) k' = if k = k' then none else alGet l k' := by
  induction l with
  | nil => simp [alDel, alGet]
  | cons p rest ih =>
    obtain ⟨pk, pv⟩ := p
    simp at hnd
    by_cases h : pk = k
    · subst h
      by_cases h2 : pk = k'
      · subst h2
        have hn : alGet rest pk = none :=
          (alGet_eq_none_iff rest pk).2 (not_mem_keys_of_forall pk rest hnd.1)
        simp [alDel, hn]
      · simp [alDel, alGet, h2]
    · by_cases h2 : pk = k'
      · subst h2
        have : ¬k = pk := fun he => h he.symm
        simp [alDel, alGet, h, this]
      · simp [alDel, alGet, h, h2, ih hnd.2]

theorem alSet_eq_append_of_not_mem {κ α : Type} [DecidableEq κ]
    (l : List (κ × α)) (k : κ) (v : α) (h : k ∉ l.map Prod.fst) :
    alSet l k v = l ++ [(k, v)] := by
  induction l with
  | nil => simp [alSet]
  | cons p rest ih =>
    obtain ⟨pk, pv⟩ := p
    simp at h
    have hk : ¬pk = k := fun he => h.1 he.symm
    simp [alSet, hk, ih (by simpa using h.2)]

theorem alGet_reverse {κ α : Type} [DecidableEq κ] (l : List (κ × α))
    (k : κ) (hnd : (l.map Prod.fst).Nodup) :
    alGet l.reverse k = alGet l k := by
  induction l with
  | nil => rfl
  | cons p rest ih =>
    obtain ⟨pk, pv⟩ := p
    simp at hnd
    rw [List.reverse_cons, alGet_append]
    by_cases h : pk = k
    · subst h
      have hn : alGet rest.reverse pk = none := by
        rw [alGet_eq_none_iff]
        simpa using not_mem_keys_of_forall pk rest hnd.1
      simp [hn, alGet]
    · rw [ih hnd.2]
      cases hg : alGet rest k with
      | none => simp [hg, alGet, h]
      | some w => simp [hg, alGet, h]

/-! ### Element access semantics -/

/-- The matrix produced by a successful `set_element` (bounds already
validated): store a non-zero value, delete the key on zero. -/
def setPure (m : SparseMatrix) (r c v : Int) : SparseMatrix :=
  if v ≠ 0 then { m with elements := alSet m.elements (r, c) v }
  else { m with elements := alDel m.elements (r, c) }

theorem validIndices_iff (m : SparseMatrix) (r c : Int) :
    m.validIndices r c = true ↔
      (0 ≤ r ∧ r < m.rows ∧ 0 ≤ c ∧ c < m.cols) := by
  simp [SparseMatrix.validIndices, and_assoc]

theorem set_element_eq_ok (m : SparseMatrix) (r c v : Int)
    (h : m.validIndices r c = true) :
    m.set_element r c v = Except.ok (setPure m r c v) := by
  by_cases hv : v = 0 <;> simp [SparseMatrix.set_element, setPure, h, hv]

theorem set_element_eq_error (m : SparseMatrix) (r c v : Int)
    (h : m.validIndices r c = false) :
    m.set_element r c v = Except.error (m.idxMsg r c) := by
  simp [SparseMatrix.set_element, h]

theorem get_element_eq_ok (m : SparseMatrix) (r c : Int)
    (h : m.validIndices r c = true) :
    m.get_element r c = Except.ok (m.val r c) := by
  simp [SparseMatrix.get_element, SparseMatrix.val, h]

theorem get_element_eq_error (m : SparseMatrix) (r c : Int)
    (h : m.validIndices r c = false) :
    m.get_element r c = Except.error (m.idxMsg r c) := by
  simp [SparseMatrix.get_element, h]

theorem setPure_rows (m : SparseMatrix) (r c v : Int) :
    (setPure m r c v).rows = m.rows := by
  by_cases hv : v = 0 <;> simp [setPure, hv]

theorem setPure_cols (m : SparseMatrix) (r c v : Int) :
    (setPure m r c v).cols = m.cols := by
  by_cases hv : v = 0 <;> simp [setPure, hv]

theorem setPure_alGet (m : SparseMatrix) (r c v : Int)
    (hnd : m.keys.Nodup) (k : Int × Int) :
    alGet (setPure m r c v).elements k =
      if (r, c) = k then (if v = 0 then none else some v)
      else alGet m.elements k := by
  by_cases hv : v = 0
  · simp only [setPure, hv, ite_true, if_neg (by simp : ¬(0 : Int) ≠ 0)]
    exact alGet_alDel m.elements (r, c) k hnd
  · simp only [setPure, hv, if_pos hv, ite_false]
    exact alGet_alSet m.elements (r, c) k v

theorem setPure_val (m : SparseMatrix) (r c v : Int)
    (hnd : m.keys.Nodup) (r' c' : Int) :
    (setPure m r c v).val r' c' =
      if (r, c) = (r', c') then v else m.val r' c' := by
  unfold SparseMatrix.val
  rw [setPure_alGet m r c v hnd (r', c')]
  by_cases hk : (r, c) = (r', c')
  · by_cases hv : v = 0 <;> simp [hk, hv]
  · simp [hk]

theorem setPure_nodup (m : SparseMatrix) (r c v : Int)
    (hnd : m.keys.Nodup) : (setPure m r c v).keys.Nodup := by
  by_cases hv : v = 0
  · simpa [setPure, hv, SparseMatrix.keys] using
      nodup_keys_alDel m.elements (r, c) hnd
  · simpa [setPure, hv, SparseMatrix.keys] using
      nodup_keys_alSet m.elements (r, c) v hnd

theorem setPure_Wf (m : SparseMatrix) (r c v : Int) (hWf : m.Wf)
    (hb : 0 ≤ r ∧ r < m.rows ∧ 0 ≤ c ∧ c < m.cols) :
    (setPure m r c v).Wf := by
  obtain ⟨h1, h2, h3, h4⟩ := hWf
  refine ⟨by rw [setPure_rows]; exact h1, by rw [setPure_cols]; exact h2,
    ?_, setPure_nodup m r c v h4⟩
  intro p hp
  rw [setPure_rows, setPure_cols]
  by_cases hv : v = 0
  · exact h3 p (mem_alDel m.elements (r, c) p (by simpa [setPure, hv] using hp))
  · have hp2 : p ∈ alSet m.elements (r, c) v := by simpa [setPure, hv] using hp
    rcases mem_alSet m.elements (r, c) v p hp2 with h | h
    · exact h3 p h
    · subst h
      exact ⟨hb.1, hb.2.1, hb.2.2.1, hb.2.2.2, hv⟩

theorem val_zero_not_mem (m : SparseMatrix) (hWf : m.Wf) (r c : Int)
    (hv : m.val r c = 0) : (r, c) ∉ m.keys := by
  intro hm
  cases hg : alGet m.elements (r, c) with
  | none => exact (alGet_eq_none_iff m.elements (r, c)).1 hg hm
  | some w =>
    have hw : w = 0 := by simpa [SparseMatrix.val, hg] using hv
    have := hWf.2.2.1 ((r, c), w) (mem_of_alGet_eq_some m.elements (r, c) w hg)
    exact this.2.2.2.2 (by simpa using hw)

theorem mem_keys_iff_val_ne_zero (m : SparseMatrix) (hWf : m.Wf)
    (r c : Int) : (r, c) ∈ m.keys ↔ m.val r c ≠ 0 := by
  constructor
  · intro hm hv
    exact val_zero_not_mem m hWf r c hv hm
  · intro hv
    by_contra hm
    have hg : alGet m.elements (r, c) = none :=
      (alGet_eq_none_iff m.elements (r, c)).2 hm
    exact hv (by simp [SparseMatrix.val, hg])

/-! ### The two loops of `add`/`subtract` -/

theorem copyLoop_eq (l : List ((Int × Int) × Int)) :
    ∀ (R C : Int) (acc : List ((Int × Int) × Int)),
    (∀ p ∈ l, 0 ≤ p.1.1 ∧ p.1.1 < R ∧ 0 ≤ p.1.2 ∧ p.1.2 < C ∧ p.2 ≠ 0) →
    (∀ p ∈ l, p.1 ∉ acc.map Prod.fst) →
    (l.map Prod.fst).Nodup →
    SparseMatrix.copyLoop ⟨R, C, acc⟩ l = Except.ok ⟨R, C, acc ++ l⟩ := by
  induction l with
  | nil => intro R C acc _ _ _; simp [SparseMatrix.copyLoop]
  | cons p rest ih =>
    intro R C acc hb hfresh hnd
    obtain ⟨⟨r, c⟩, v⟩ := p
    have hbp := hb ((r, c), v) (by simp)
    have hvalid : (SparseMatrix.mk R C acc).validIndices r c = true := by
      rw [validIndices_iff]
      exact ⟨hbp.1, hbp.2.1, hbp.2.2.1, hbp.2.2.2.1⟩
    have hset := set_element_eq_ok ⟨R, C, acc⟩ r c v hvalid
    have hsp : setPure ⟨R, C, acc⟩ r c v =
        ⟨R, C, acc ++ [((r, c), v)]⟩ := by
      simp only [setPure, if_pos hbp.2.2.2.2]
      have := alSet_eq_append_of_not_mem acc (r, c) v
        (hfresh ((r, c), v) (by simp))
      simp [this]
    simp only [SparseMatrix.copyLoop, hset, hsp]
    have hrec := ih R C (acc ++ [((r, c), v)])
      (fun q hq => hb q (by simp [hq]))
      (fun q hq => by
        simp at hnd
        have h1 := hfresh q (by simp [hq])
        have hknot : (r, c) ∉ rest.map Prod.fst :=
          not_mem_keys_of_forall (r, c) rest hnd.1
        have h2 : q.1 ≠ (r, c) :=
          fun he => hknot (List.mem_map.2 ⟨q, hq, he⟩)
        simp [h1, h2])
      (by simp at hnd; exact hnd.2)
    rw [hrec]
    simp

theorem mergeLoop_spec (f : Int → Int → Int)
    (l : List ((Int × Int) × Int)) :
    ∀ (res : SparseMatrix), res.Wf →
    (∀ p ∈ l, 0 ≤ p.1.1 ∧ p.1.1 < res.rows ∧ 0 ≤ p.1.2 ∧ p.1.2 < res.cols) →
    (l.map Prod.fst).Nodup →
    ∃ res', SparseMatrix.mergeLoop f res l = Except.ok res' ∧
      res'.rows = res.rows ∧ res'.cols = res.cols ∧ res'.Wf ∧
      ∀ k : Int × Int, res'.val k.1 k.2 =
        match alGet l k with
        | some v => f (res.val k.1 k.2) v
        | none => res.val k.1 k.2 := by
  induction l with
  | nil =>
    intro res hWf _ _
    exact ⟨res, by simp [SparseMatrix.mergeLoop], rfl, rfl, hWf,
      fun k => by simp [alGet]⟩
  | cons p rest ih =>
    intro res hWf hb hnd
    obtain ⟨⟨r, c⟩, v⟩ := p
    have hbp := hb ((r, c), v) (by simp)
    have hvalid : res.validIndices r c = true := by
      rw [validIndices_iff]
      exact hbp
    have hget := get_element_eq_ok res r c hvalid
    have hset := set_element_eq_ok res r c (f (res.val r c) v) hvalid
    set res2 := setPure res r c (f (res.val r c) v) with hres2
    have hWf2 : res2.Wf := setPure_Wf res r c _ hWf hbp
    have hrows2 : res2.rows = res.rows := setPure_rows res r c _
    have hcols2 : res2.cols = res.cols := setPure_cols res r c _
    simp at hnd
    obtain ⟨res', hrun, hr', hc', hWf', hval'⟩ := ih res2 hWf2
      (fun q hq => by
        rw [hrows2, hcols2]
        exact hb q (by simp [hq]))
      hnd.2
    refine ⟨res', ?_, by rw [hr', hrows2], by rw [hc', hcols2], hWf', ?_⟩
    · simp only [SparseMatrix.mergeLoop, hget, hset]
      exact hrun
    · intro k
      by_cases hk : (r, c) = k
      · subst hk
        have hnone : alGet rest (r, c) = none :=
          (alGet_eq_none_iff rest (r, c)).2
            (not_mem_keys_of_forall (r, c) rest hnd.1)
        rw [hval' (r, c)]
        simp only [hnone]
        rw [hres2, setPure_val res r c _ hWf.2.2.2 r c]
        simp [alGet]
      · rw [hval' k]
        have hvv : res2.val k.1 k.2 = res.val k.1 k.2 := by
          rw [hres2, setPure_val res r c _ hWf.2.2.2 k.1 k.2]
          exact if_neg hk
        cases hg : alGet rest k with
        | none => simp [alGet, hg, hvv, hk]
        | some w => simp [alGet, hg, hvv, hk]

/-! ### `add` and `subtract` semantics -/

theorem val_of_alGet_some (m : SparseMatrix) (r c v : Int)
    (h : alGet m.elements (r, c) = some v) : m.val r c = v := by
  simp [SparseMatrix.val, h]

theorem val_of_alGet_none (m : SparseMatrix) (r c : Int)
    (h : alGet m.elements (r, c) = none) : m.val r c = 0 := by
  simp [SparseMatrix.val, h]

theorem copyLoop_self (a : SparseMatrix) (hA : a.Wf) :
    SparseMatrix.copyLoop ⟨a.rows, a.cols, []⟩ a.elements =
      Except.ok a := by
  have hcopy := copyLoop_eq a.elements a.rows a.cols []
    (fun p hp => hA.2.2.1 p hp) (by simp) hA.2.2.2
  simpa using hcopy

theorem add_spec (a b : SparseMatrix) (hA : a.Wf) (hB : b.Wf)
    (hr : a.rows = b.rows) (hc : a.cols = b.cols) :
    ∃ s, a.add b = Except.ok s ∧ s.rows = a.rows ∧ s.cols = a.cols ∧
      s.Wf ∧ ∀ r c : Int, s.val r c = a.val r c + b.val r c := by
  obtain ⟨s, hrun, hsr, hsc, hsWf, hsval⟩ := mergeLoop_spec
    (fun current value => current + value) b.elements a hA
    (fun p hp => by
      have hp2 := hB.2.2.1 p hp
      exact ⟨hp2.1, hr ▸ hp2.2.1, hp2.2.2.1, hc ▸ hp2.2.2.2.1⟩)
    hB.2.2.2
  refine ⟨s, ?_, hsr, hsc, hsWf, ?_⟩
  · have hcond : ¬(a.rows ≠ b.rows ∨ a.cols ≠ b.cols) := by simp [hr, hc]
    simp only [SparseMatrix.add, if_neg hcond, copyLoop_self a hA]
    exact hrun
  · intro r c
    have hv := hsval (r, c)
    cases hg : alGet b.elements (r, c) with
    | none =>
      rw [val_of_alGet_none b r c hg]
      simpa [hg] using hv
    | some w =>
      rw [val_of_alGet_some b r c w hg]
      simpa [hg] using hv

theorem subtract_spec (a b : SparseMatrix) (hA : a.Wf) (hB : b.Wf)
    (hr : a.rows = b.rows) (hc : a.cols = b.cols) :
    ∃ s, a.subtract b = Except.ok s ∧ s.rows = a.rows ∧ s.cols = a.cols ∧
      s.Wf ∧ ∀ r c : Int, s.val r c = a.val r c - b.val r c := by
  obtain ⟨s, hrun, hsr, hsc, hsWf, hsval⟩ := mergeLoop_spec
    (fun current value => current - value) b.elements a hA
    (fun p hp => by
      have hp2 := hB.2.2.1 p hp
      exact ⟨hp2.1, hr ▸ hp2.2.1, hp2.2.2.1, hc ▸ hp2.2.2.2.1⟩)
    hB.2.2.2
  refine ⟨s, ?_, hsr, hsc, hsWf, ?_⟩
  · have hcond : ¬(a.rows ≠ b.rows ∨ a.cols ≠ b.cols) := by simp [hr, hc]
    simp only [SparseMatrix.subtract, if_neg hcond, copyLoop_self a hA]
    exact hrun
  · intro r c
    have hv := hsval (r, c)
    cases hg : alGet b.elements (r, c) with
    | none =>
      rw [val_of_alGet_none b r c hg]
      simpa [hg] using hv
    | some w =>
      rw [val_of_alGet_some b r c w hg]
      simpa [hg] using hv

/-! ### Claims C5 and C2 -/

/-- C5: for every well-formed matrix and in-bounds coordinate, after
`set_element(r, c, v)` the call `get_element(r, c)` returns `v` (in
particular 0 after setting 0), and setting 0 leaves the coordinate absent
from internal storage; for an out-of-bounds coordinate both `get_element`
and `set_element` fail with the index error — and, the embedded operations
being pure functions that only return a new matrix, the original matrix is
unchanged in every case. -/
theorem C5_get_set_element (m : SparseMatrix) (hWf : m.Wf) (r c v : Int) :
    (m.validIndices r c = true →
      ∃ m', m.set_element r c v = Except.ok m' ∧
        m'.get_element r c = Except.ok v ∧
        (v = 0 → (r, c) ∉ m'.keys)) ∧
    (m.validIndices r c = false →
      m.get_element r c = Except.error (m.idxMsg r c) ∧
      m.set_element r c v = Except.error (m.idxMsg r c)) := by
  constructor
  · intro hvalid
    refine ⟨setPure m r c v, set_element_eq_ok m r c v hvalid, ?_, ?_⟩
    · have hvalid2 : (setPure m r c v).validIndices r c = true := by
        rw [validIndices_iff, setPure_rows, setPure_cols]
        exact (validIndices_iff m r c).1 hvalid
      rw [get_element_eq_ok _ r c hvalid2,
        setPure_val m r c v hWf.2.2.2 r c]
      simp
    · intro hv
      subst hv
      have hg : alGet (setPure m r c 0).elements (r, c) = none := by
        rw [setPure_alGet m r c 0 hWf.2.2.2 (r, c)]
        simp
      exact (alGet_eq_none_iff _ _).1 hg
  · intro hinvalid
    exact ⟨get_element_eq_error m r c hinvalid,
      set_element_eq_error m r c v hinvalid⟩

/-- Witness for C5 at the matrix `⟨2, 2, [((0, 1), 5)]⟩`. -/
theorem C5_get_set_element_witness :
    ((SparseMatrix.mk 2 2 [((0, 1), 5)]).validIndices 0 1 = true →
      ∃ m', (SparseMatrix.mk 2 2 [((0, 1), 5)]).set_element 0 1 0 =
          Except.ok m' ∧
        m'.get_element 0 1 = Except.ok 0 ∧
        ((0 : Int) = 0 → ((0 : Int), (1 : Int)) ∉ m'.keys)) ∧
    ((SparseMatrix.mk 2 2 [((0, 1), 5)]).validIndices 0 1 = false →
      (SparseMatrix.mk 2 2 [((0, 1), 5)]).get_element 0 1 =
        Except.error ((SparseMatrix.mk 2 2 [((0, 1), 5)]).idxMsg 0 1) ∧
      (SparseMatrix.mk 2 2 [((0, 1), 5)]).set_element 0 1 0 =
        Except.error ((SparseMatrix.mk 2 2 [((0, 1), 5)]).idxMsg 0 1)) :=
  C5_get_set_element ⟨2, 2, [((0, 1), 5)]⟩ (by decide) 0 1 0

/-- C2: for well-formed operands of equal dimensions, `add` returns a new
matrix of the same dimensions holding the entrywise sum (absent entries
reading as 0) and `subtract` the entrywise difference; any coordinate whose
sum or difference is 0 is absent from the result's storage. -/
theorem C2_add_subtract_entrywise (a b : SparseMatrix) (hA : a.Wf)
    (hB : b.Wf) (hr : a.rows = b.rows) (hc : a.cols = b.cols) :
    (∃ s, a.add b = Except.ok s ∧ s.rows = a.rows ∧ s.cols = a.cols ∧
      (∀ r c : Int, s.val r c = a.val r c + b.val r c) ∧
      (∀ r c : Int, a.val r c + b.val r c = 0 → (r, c) ∉ s.keys)) ∧
    (∃ d, a.subtract b = Except.ok d ∧ d.rows = a.rows ∧ d.cols = a.cols ∧
      (∀ r c : Int, d.val r c = a.val r c - b.val r c) ∧
      (∀ r c : Int, a.val r c - b.val r c = 0 → (r, c) ∉ d.keys)) := by
  constructor
  · obtain ⟨s, hrun, hsr, hsc, hsWf, hsval⟩ := add_spec a b hA hB hr hc
    refine ⟨s, hrun, hsr, hsc, hsval, ?_⟩
    intro r c hz
    exact val_zero_not_mem s hsWf r c ((hsval r c).trans hz)
  · obtain ⟨d, hrun, hdr, hdc, hdWf, hdval⟩ := subtract_spec a b hA hB hr hc
    refine ⟨d, hrun, hdr, hdc, hdval, ?_⟩
    intro r c hz
    exact val_zero_not_mem d hdWf r c ((hdval r c).trans hz)

/-- Witness for C2 at `A = [[1,0],[0,0]]`, `B = [[0,2],[0,0]]`. -/
theorem C2_add_subtract_entrywise_witness :
    (∃ s, (SparseMatrix.mk 2 2 [((0, 0), 1)]).add
        ⟨2, 2, [((0, 1), 2)]⟩ = Except.ok s ∧
      s.rows = (SparseMatrix.mk 2 2 [((0, 0), 1)]).rows ∧
      s.cols = (SparseMatrix.mk 2 2 [((0, 0), 1)]).cols ∧
      (∀ r c : Int, s.val r c =
        (SparseMatrix.mk 2 2 [((0, 0), 1)]).val r c +
          (SparseMatrix.mk 2 2 [((0, 1), 2)]).val r c) ∧
      (∀ r c : Int, (SparseMatrix.mk 2 2 [((0, 0), 1)]).val r c +
          (SparseMatrix.mk 2 2 [((0, 1), 2)]).val r c = 0 →
        (r, c) ∉ s.keys)) ∧
    (∃ d, (SparseMatrix.mk 2 2 [((0, 0), 1)]).subtract
        ⟨2, 2, [((0, 1), 2)]⟩ = Except.ok d ∧
      d.rows = (SparseMatrix.mk 2 2 [((0, 0), 1)]).rows ∧
      d.cols = (SparseMatrix.mk 2 2 [((0, 0), 1)]).cols ∧
      (∀ r c : Int, d.val r c =
        (SparseMatrix.mk 2 2 [((0, 0), 1)]).val r c -
          (SparseMatrix.mk 2 2 [((0, 1), 2)]).val r c) ∧
      (∀ r c : Int, (SparseMatrix.mk 2 2 [((0, 0), 1)]).val r c -
          (SparseMatrix.mk 2 2 [((0, 1), 2)]).val r c = 0 →
        (r, c) ∉ d.keys)) :=
  C2_add_subtract_entrywise ⟨2, 2, [((0, 0), 1)]⟩ ⟨2, 2, [((0, 1), 2)]⟩
    (by decide) (by decide) rfl rfl

/-! ### `multiply`: grouping passes and dot products -/

/-- Reading `self_rows[i][k]` (or `other_cols[i][k]`) through both
association-list levels. -/
def groupGet (g : List (Int × List (Int × Int))) (i k : Int) : Option Int :=
  match alGet g i with
  | some d => alGet d k
  | none => none

theorem groupGet_step (acc : List (Int × List (Int × Int)))
    (i k : Int) (v : Int) (i' k' : Int) :
    groupGet (alSet acc i (alSet ((alGet acc i).getD []) k v)) i' k' =
      if i = i' ∧ k = k' then some v
      else groupGet acc i' k' := by
  unfold groupGet
  rw [alGet_alSet]
  by_cases hi : i = i'
  · subst hi
    rw [if_pos rfl]
    show alGet (alSet ((alGet acc i).getD []) k v) k' = _
    rw [alGet_alSet]
    by_cases hk : k = k'
    · subst hk
      simp
    · rw [if_neg hk, if_neg (fun h : i = i ∧ k = k' => hk h.2)]
      cases hg : alGet acc i with
      | none => simp [hg, alGet]
      | some d => simp [hg]
  · rw [if_neg hi, if_neg (fun h : i = i' ∧ k = k' => hi h.1)]

theorem groupRows_loop (els : List ((Int × Int) × Int)) :
    ∀ acc, (els.map Prod.fst).Nodup → ∀ i k,
    groupGet (els.foldl (fun acc p =>
        alSet acc p.1.1 (alSet ((alGet acc p.1.1).getD []) p.1.2 p.2))
      acc) i k =
      match alGet els (i, k) with
      | some v => some v
      | none => groupGet acc i k := by
  induction els with
  | nil => intro acc _ i k; simp [alGet]
  | cons p rest ih =>
    intro acc hnd i k
    simp at hnd
    rw [List.foldl_cons, ih _ hnd.2 i k]
    by_cases hp : p.1 = (i, k)
    · have hrest : alGet rest (i, k) = none := by
        rw [alGet_eq_none_iff]
        rw [← hp]
        intro hm
        rcases List.mem_map.1 hm with ⟨q, hq, hqk⟩
        have hq2 : q = (p.1, q.2) := by
          obtain ⟨q1, q2⟩ := q
          simp at hqk
          simp [hqk]
        exact hnd.1 q.2 (hq2 ▸ hq)
      have hcons : alGet (p :: rest) (i, k) = some p.2 := by
        simp [alGet, hp]
      rw [hrest, hcons, groupGet_step]
      have h1 : p.1.1 = i := by rw [hp]
      have h2 : p.1.2 = k := by rw [hp]
      simp [h1, h2]
    · have hcons : alGet (p :: rest) (i, k) = alGet rest (i, k) := by
        simp [alGet, hp]
      rw [hcons]
      cases hg : alGet rest (i, k) with
      | some v => simp
      | none =>
        have hcond : ¬(p.1.1 = i ∧ p.1.2 = k) := by
          intro h
          apply hp
          have hpe : p.1 = (p.1.1, p.1.2) := rfl
          rw [hpe, h.1, h.2]
        rw [groupGet_step]
        simp [hcond]

theorem groupGet_groupRows (els : List ((Int × Int) × Int))
    (hnd : (els.map Prod.fst).Nodup) (i k : Int) :
    groupGet (groupRows els) i k = alGet els (i, k) := by
  rw [groupRows, groupRows_loop els [] hnd i k]
  cases hg : alGet els (i, k) with
  | some v => simp
  | none => simp [groupGet, alGet]

theorem groupCols_loop (els : List ((Int × Int) × Int)) :
    ∀ acc, (els.map Prod.fst).Nodup → ∀ j k,
    groupGet (els.foldl (fun acc p =>
        alSet acc p.1.2 (alSet ((alGet acc p.1.2).getD []) p.1.1 p.2))
      acc) j k =
      match alGet els (k, j) with
      | some v => some v
      | none => groupGet acc j k := by
  induction els with
  | nil => intro acc _ j k; simp [alGet]
  | cons p rest ih =>
    intro acc hnd j k
    simp at hnd
    rw [List.foldl_cons, ih _ hnd.2 j k]
    by_cases hp : p.1 = (k, j)
    · have hrest : alGet rest (k, j) = none := by
        rw [alGet_eq_none_iff]
        rw [← hp]
        intro hm
        rcases List.mem_map.1 hm with ⟨q, hq, hqk⟩
        have hq2 : q = (p.1, q.2) := by
          obtain ⟨q1, q2⟩ := q
          simp at hqk
          simp [hqk]
        exact hnd.1 q.2 (hq2 ▸ hq)
      have hcons : alGet (p :: rest) (k, j) = some p.2 := by
        simp [alGet, hp]
      rw [hrest, hcons, groupGet_step]
      have h1 : p.1.2 = j := by rw [hp]
      have h2 : p.1.1 = k := by rw [hp]
      simp [h1, h2]
    · have hcons : alGet (p :: rest) (k, j) = alGet rest (k, j) := by
        simp [alGet, hp]
      rw [hcons]
      cases hg : alGet rest (k, j) with
      | some v => simp
      | none =>
        have hcond : ¬(p.1.2 = j ∧ p.1.1 = k) := by
          intro h
          apply hp
          have hpe : p.1 = (p.1.1, p.1.2) := rfl
          rw [hpe, h.2, h.1]
        rw [groupGet_step]
        simp [hcond]

theorem groupGet_groupCols (els : List ((Int × Int) × Int))
    (hnd : (els.map Prod.fst).Nodup) (j k : Int) :
    groupGet (groupCols els) j k = alGet els (k, j) := by
  rw [groupCols, groupCols_loop els [] hnd j k]
  cases hg : alGet els (k, j) with
  | some v => simp
  | none => simp [groupGet, alGet]

theorem nodup_outer_keys_loop (els : List ((Int × Int) × Int))
    (sel : (Int × Int) × Int → Int × Int) :
    ∀ acc : List (Int × List (Int × Int)), (acc.map Prod.fst).Nodup →
    ((els.foldl (fun acc p =>
        alSet acc (sel p).1
          (alSet ((alGet acc (sel p).1).getD []) (sel p).2 p.2))
      acc).map Prod.fst).Nodup := by
  induction els with
  | nil => intro acc h; simpa using h
  | cons p rest ih =>
    intro acc h
    rw [List.foldl_cons]
    exact ih _ (nodup_keys_alSet acc (sel p).1 _ h)

theorem inner_nodup_loop (els : List ((Int × Int) × Int))
    (sel : (Int × Int) × Int → Int × Int) :
    ∀ acc : List (Int × List (Int × Int)),
    (∀ q ∈ acc, (q.2.map Prod.fst).Nodup) →
    ∀ q ∈ (els.foldl (fun acc p =>
        alSet acc (sel p).1
          (alSet ((alGet acc (sel p).1).getD []) (sel p).2 p.2))
      acc), (q.2.map Prod.fst).Nodup := by
  induction els with
  | nil => intro acc h q hq; exact h q hq
  | cons p rest ih =>
    intro acc h q hq
    rw [List.foldl_cons] at hq
    refine ih _ ?_ q hq
    intro q' hq'
    rcases mem_alSet acc (sel p).1 _ q' hq' with hm | hm
    · exact h q' hm
    · subst hm
      cases hg : alGet acc (sel p).1 with
      | none => simp [hg, alSet]
      | some d =>
        have hd : ((sel p).1, d) ∈ acc := mem_of_alGet_eq_some _ _ _ hg
        have := h ((sel p).1, d) hd
        simpa [hg] using nodup_keys_alSet d (sel p).2 p.2 this

theorem outer_keys_from_entries_loop (els : List ((Int × Int) × Int))
    (sel : (Int × Int) × Int → Int × Int) :
    ∀ acc : List (Int × List (Int × Int)), ∀ i : Int,
    i ∈ ((els.foldl (fun acc p =>
        alSet acc (sel p).1
          (alSet ((alGet acc (sel p).1).getD []) (sel p).2 p.2))
      acc).map Prod.fst) →
    i ∈ acc.map Prod.fst ∨ ∃ p ∈ els, (sel p).1 = i := by
  induction els with
  | nil => intro acc i h; exact Or.inl h
  | cons p rest ih =>
    intro acc i h
    rw [List.foldl_cons] at h
    rcases ih _ i h with hm | ⟨q, hq, hqs⟩
    · rw [keys_alSet] at hm
      by_cases hin : (sel p).1 ∈ acc.map Prod.fst
      · exact Or.inl (by simpa [hin] using hm)
      · simp only [hin, if_false, List.mem_append, List.mem_singleton] at hm
        rcases hm with hm | hm
        · exact Or.inl hm
        · exact Or.inr ⟨p, by simp, hm.symm⟩
    · exact Or.inr ⟨q, by simp [hq], hqs⟩

theorem dotList_foldl_acc (rowi colj : List (Int × Int)) :
    ∀ a : Int,
    rowi.foldl (fun acc kv =>
      match alGet colj kv.1 with
      | some bv => acc + kv.2 * bv
      | none => acc) a =
    a + (rowi.map (fun kv => kv.2 * (alGet colj kv.1).getD 0)).sum := by
  induction rowi with
  | nil => intro a; simp
  | cons kv rest ih =>
    intro a
    rw [List.foldl_cons]
    cases hg : alGet colj kv.1 with
    | none => rw [ih a]; simp [hg]
    | some bv => rw [ih (a + kv.2 * bv)]; simp [hg, add_assoc]

theorem dotList_eq_sum (rowi colj : List (Int × Int)) :
    dotList rowi colj =
      (rowi.map (fun kv => kv.2 * (alGet colj kv.1).getD 0)).sum := by
  rw [dotList, dotList_foldl_acc rowi colj 0]
  ring

theorem sum_over_keys_eq_range (K : List Int) (hnd : K.Nodup) (n : Nat)
    (f : Int → Int)
    (hb : ∀ k ∈ K, 0 ≤ k ∧ k < (n : Int))
    (hz : ∀ k : Int, 0 ≤ k → k < (n : Int) → k ∉ K → f k = 0) :
    (K.map f).sum =
      ((List.range n).map (fun k : Nat => f (k : Int))).sum := by
  have h1 : (K.map f).sum = ∑ x ∈ K.toFinset, f x :=
    (List.sum_toFinset f hnd).symm
  have h2 : ((List.range n).map (fun k : Nat => f (k : Int))).sum
      = ∑ x ∈ (List.range n).toFinset, f (x : Int) :=
    (List.sum_toFinset _ (List.nodup_range n)).symm
  rw [h1, h2]
  have h3 : (∑ x ∈ (List.range n).toFinset, f (x : Int)) =
      ∑ x ∈ (List.range n).toFinset.image (fun y : Nat => (y : Int)), f x :=
    (Finset.sum_image (fun x _ y _ h => by omega)).symm
  rw [h3]
  apply Finset.sum_subset
  · intro x hx
    rw [List.mem_toFinset] at hx
    have hbx := hb x hx
    simp only [Finset.mem_image, List.mem_toFinset, List.mem_range]
    exact ⟨x.toNat, by omega, by omega⟩
  · intro x hx hnx
    simp only [Finset.mem_image, List.mem_toFinset, List.mem_range] at hx
    obtain ⟨y, hy, hxy⟩ := hx
    rw [List.mem_toFinset] at hnx
    exact hz x (by omega) (by omega) hnx

theorem mulInner_spec (ocols : List (Int × List (Int × Int))) :
    ∀ (res : SparseMatrix) (i : Int) (rowi : List (Int × Int)),
    res.Wf → 0 ≤ i → i < res.rows →
    (∀ q ∈ ocols, 0 ≤ q.1 ∧ q.1 < res.cols) →
    (ocols.map Prod.fst).Nodup →
    (∀ q ∈ ocols, res.val i q.1 = 0) →
    ∃ res', SparseMatrix.mulInner res i rowi ocols = Except.ok res' ∧
      res'.rows = res.rows ∧ res'.cols = res.cols ∧ res'.Wf ∧
      (∀ r c : Int, r ≠ i → res'.val r c = res.val r c) ∧
      (∀ c : Int, res'.val i c =
        match alGet ocols c with
        | some colj => dotList rowi colj
        | none => res.val i c) := by
  induction ocols with
  | nil =>
    intro res i rowi hWf _ _ _ _ _
    exact ⟨res, by simp [SparseMatrix.mulInner], rfl, rfl, hWf,
      fun r c _ => rfl, fun c => by simp [alGet]⟩
  | cons q rest ih =>
    intro res i rowi hWf hi0 hi1 hj hnd hz
    obtain ⟨j, colj⟩ := q
    simp at hnd
    have hjb := hj (j, colj) (by simp)
    by_cases hdot : dotList rowi colj ≠ 0
    · have hvalid : res.validIndices i j = true := by
        rw [validIndices_iff]
        exact ⟨hi0, hi1, hjb.1, hjb.2⟩
      have hset := set_element_eq_ok res i j (dotList rowi colj) hvalid
      set res2 := setPure res i j (dotList rowi colj) with hres2
      have hWf2 : res2.Wf := setPure_Wf res i j _ hWf ⟨hi0, hi1, hjb⟩
      have hrows2 : res2.rows = res.rows := setPure_rows res i j _
      have hcols2 : res2.cols = res.cols := setPure_cols res i j _
      obtain ⟨res', hrun, hr', hc', hWf', hother, hrow⟩ := ih res2 i rowi
        hWf2 (by omega) (by omega)
        (fun q2 hq2 => by rw [hcols2]; exact hj q2 (by simp [hq2]))
        hnd.2
        (fun q2 hq2 => by
          rw [hres2, setPure_val res i j _ hWf.2.2.2 i q2.1]
          have hne : ¬((i, j) = (i, q2.1)) := by
            intro he
            simp at he
            exact hnd.1 q2.2 (by rw [he]; exact hq2)
          rw [if_neg hne]
          exact hz q2 (by simp [hq2]))
      refine ⟨res', ?_, by rw [hr', hrows2], by rw [hc', hcols2], hWf',
        ?_, ?_⟩
      · simp only [SparseMatrix.mulInner, if_pos hdot, hset]
        exact hrun
      · intro r c hr
        rw [hother r c hr, hres2, setPure_val res i j _ hWf.2.2.2 r c]
        rw [if_neg (by
          intro he
          exact hr (congrArg Prod.fst he).symm)]
      · intro c
        by_cases hc : j = c
        · subst hc
          have hrnone : alGet rest j = none :=
            (alGet_eq_none_iff rest j).2
              (not_mem_keys_of_forall j rest hnd.1)
          have hget : alGet ((j, colj) :: rest) j = some colj := by
            simp [alGet]
          rw [hrow j, hrnone, hget]
          show res2.val i j = dotList rowi colj
          rw [hres2, setPure_val res i j _ hWf.2.2.2 i j, if_pos rfl]
        · cases hg : alGet rest c with
          | some cj =>
            have hget : alGet ((j, colj) :: rest) c = some cj := by
              simp [alGet, hc, hg]
            rw [hrow c, hg, hget]
          | none =>
            have hget : alGet ((j, colj) :: rest) c = none := by
              simp [alGet, hc, hg]
            rw [hrow c, hg, hget]
            show res2.val i c = res.val i c
            rw [hres2, setPure_val res i j _ hWf.2.2.2 i c,
              if_neg (by intro he; exact hc (congrArg Prod.snd he))]
    · push_neg at hdot
      obtain ⟨res', hrun, hr', hc', hWf', hother, hrow⟩ := ih res i rowi
        hWf hi0 hi1
        (fun q2 hq2 => hj q2 (by simp [hq2]))
        hnd.2
        (fun q2 hq2 => hz q2 (by simp [hq2]))
      refine ⟨res', ?_, hr', hc', hWf', hother, ?_⟩
      · have hcond : ¬(dotList rowi colj ≠ 0) := by simp [hdot]
        simp only [SparseMatrix.mulInner, if_neg hcond]
        exact hrun
      · intro c
        by_cases hc : j = c
        · subst hc
          have hrnone : alGet rest j = none :=
            (alGet_eq_none_iff rest j).2
              (not_mem_keys_of_forall j rest hnd.1)
          have hget : alGet ((j, colj) :: rest) j = some colj := by
            simp [alGet]
          rw [hrow j, hrnone, hget]
          show res.val i j = dotList rowi colj
          have hzj : res.val i j = 0 := hz (j, colj) (by simp)
          rw [hzj, hdot]
        · cases hg : alGet rest c with
          | some cj =>
            have hget : alGet ((j, colj) :: rest) c = some cj := by
              simp [alGet, hc, hg]
            rw [hrow c, hg, hget]
          | none =>
            have hget : alGet ((j, colj) :: rest) c = none := by
              simp [alGet, hc, hg]
            rw [hrow c, hg, hget]

theorem mulOuter_spec (orows ocols : List (Int × List (Int × Int))) :
    ∀ res : SparseMatrix, res.Wf →
    (∀ q ∈ orows, 0 ≤ q.1 ∧ q.1 < res.rows) →
    (∀ q ∈ ocols, 0 ≤ q.1 ∧ q.1 < res.cols) →
    (orows.map Prod.fst).Nodup →
    (ocols.map Prod.fst).Nodup →
    (∀ q ∈ orows, ∀ c : Int, res.val q.1 c = 0) →
    ∃ res', SparseMatrix.mulOuter res ocols orows = Except.ok res' ∧
      res'.rows = res.rows ∧ res'.cols = res.cols ∧ res'.Wf ∧
      ∀ r c : Int, res'.val r c =
        match alGet orows r with
        | some rowi =>
          (match alGet ocols c with
           | some colj => dotList rowi colj
           | none => res.val r c)
        | none => res.val r c := by
  induction orows with
  | nil =>
    intro res hWf _ _ _ _ _
    exact ⟨res, by simp [SparseMatrix.mulOuter], rfl, rfl, hWf,
      fun r c => by simp [alGet]⟩
  | cons q rest ih =>
    intro res hWf hri hcj hndr hndc hzero
    obtain ⟨i, rowi⟩ := q
    simp at hndr
    have hib := hri (i, rowi) (by simp)
    obtain ⟨res1, hrun1, hr1, hc1, hWf1, hother1, hrow1⟩ :=
      mulInner_spec ocols res i rowi hWf hib.1 hib.2 hcj hndc
        (fun q2 _ => hzero (i, rowi) (by simp) q2.1)
    obtain ⟨res', hrun', hr', hc', hWf', hchar⟩ := ih res1 hWf1
      (fun q2 hq2 => by rw [hr1]; exact hri q2 (by simp [hq2]))
      (fun q2 hq2 => by rw [hc1]; exact hcj q2 hq2)
      hndr.2 hndc
      (fun q2 hq2 c => by
        have hne : q2.1 ≠ i := by
          intro he
          apply hndr.1 q2.2
          have hq2e : q2 = (q2.1, q2.2) := rfl
          rw [hq2e, he] at hq2
          exact hq2
        rw [hother1 q2.1 c hne]
        exact hzero q2 (by simp [hq2]) c)
    refine ⟨res', ?_, by rw [hr', hr1], by rw [hc', hc1], hWf', ?_⟩
    · simp only [SparseMatrix.mulOuter, hrun1]
      exact hrun'
    · intro r c
      by_cases hir : i = r
      · subst hir
        have hgr : alGet ((i, rowi) :: rest) i = some rowi := by
          simp [alGet]
        have hrestnone : alGet rest i = none :=
          (alGet_eq_none_iff rest i).2
            (not_mem_keys_of_forall i rest hndr.1)
        rw [hchar i c, hrestnone, hgr]
        show res1.val i c = _
        exact hrow1 c
      · have hgr : alGet ((i, rowi) :: rest) r = alGet rest r := by
          simp [alGet, hir]
        rw [hchar r c, hgr]
        cases hg : alGet rest r with
        | none =>
          show res1.val r c = res.val r c
          exact hother1 r c (fun h => hir h.symm)
        | some rowi2 =>
          show (match alGet ocols c with
            | some colj => dotList rowi2 colj
            | none => res1.val r c) =
            match alGet ocols c with
            | some colj => dotList rowi2 colj
            | none => res.val r c
          cases hc : alGet ocols c with
          | some colj => rfl
          | none =>
            show res1.val r c = res.val r c
            exact hother1 r c (fun h => hir h.symm)

theorem mulOuter_nil_cols (orows : List (Int × List (Int × Int))) :
    ∀ res : SparseMatrix,
    SparseMatrix.mulOuter res [] orows = Except.ok res := by
  induction orows with
  | nil => intro res; rfl
  | cons q rest ih =>
    intro res
    obtain ⟨i, rowi⟩ := q
    have h1 : SparseMatrix.mulInner res i rowi [] = Except.ok res := rfl
    simp only [SparseMatrix.mulOuter, h1]
    exact ih res

theorem groupRows_key_from_entries (els : List ((Int × Int) × Int))
    (i : Int) (h : i ∈ (groupRows els).map Prod.fst) :
    ∃ p ∈ els, p.1.1 = i := by
  rcases outer_keys_from_entries_loop els Prod.fst [] i h with hm | he
  · simp at hm
  · exact he

theorem groupCols_key_from_entries (els : List ((Int × Int) × Int))
    (j : Int) (h : j ∈ (groupCols els).map Prod.fst) :
    ∃ p ∈ els, p.1.2 = j := by
  rcases outer_keys_from_entries_loop els (fun p => (p.1.2, p.1.1)) [] j h
    with hm | he
  · simp at hm
  · exact he

theorem multiply_spec (a b : SparseMatrix) (hA : a.Wf) (hB : b.Wf)
    (hd : a.cols = b.rows) :
    ∃ m, a.multiply b = Except.ok m ∧ m.rows = a.rows ∧ m.cols = b.cols ∧
      m.Wf ∧ (∀ i j : Int, m.val i j = dotProd a b i j) ∧
      ((a.elements = [] ∨ b.elements = []) → m.elements = []) := by
  have hWf0 : (SparseMatrix.mk a.rows b.cols []).Wf :=
    ⟨hA.1, hB.2.1, by simp, by simp [SparseMatrix.keys]⟩
  have hndr : ((groupRows a.elements).map Prod.fst).Nodup :=
    nodup_outer_keys_loop a.elements Prod.fst [] (by simp)
  have hndc : ((groupCols b.elements).map Prod.fst).Nodup :=
    nodup_outer_keys_loop b.elements (fun p => (p.1.2, p.1.1)) [] (by simp)
  have hri : ∀ q ∈ groupRows a.elements,
      0 ≤ q.1 ∧ q.1 < (SparseMatrix.mk a.rows b.cols []).rows := by
    intro q hq
    obtain ⟨p, hp, hps⟩ := groupRows_key_from_entries a.elements q.1
      (List.mem_map.2 ⟨q, hq, rfl⟩)
    have := hA.2.2.1 p hp
    exact ⟨hps ▸ this.1, hps ▸ this.2.1⟩
  have hcj : ∀ q ∈ groupCols b.elements,
      0 ≤ q.1 ∧ q.1 < (SparseMatrix.mk a.rows b.cols []).cols := by
    intro q hq
    obtain ⟨p, hp, hps⟩ := groupCols_key_from_entries b.elements q.1
      (List.mem_map.2 ⟨q, hq, rfl⟩)
    have := hB.2.2.1 p hp
    exact ⟨hps ▸ this.2.2.1, hps ▸ this.2.2.2.1⟩
  obtain ⟨m, hrun, hmr, hmc, hmWf, hchar⟩ := mulOuter_spec
    (groupRows a.elements) (groupCols b.elements)
    ⟨a.rows, b.cols, []⟩ hWf0 hri hcj hndr hndc
    (fun q _ c => by simp [SparseMatrix.val, alGet])
  have hmul : a.multiply b = Except.ok m := by
    have hcond : ¬(a.cols ≠ b.rows) := by simp [hd]
    simp only [SparseMatrix.multiply, if_neg hcond]
    exact hrun
  have hinner : ∀ q ∈ groupRows a.elements, (q.2.map Prod.fst).Nodup :=
    inner_nodup_loop a.elements Prod.fst [] (by simp)
  refine ⟨m, hmul, hmr, hmc, hmWf, ?_, ?_⟩
  · intro i j
    rw [hchar i j]
    cases hgr : alGet (groupRows a.elements) i with
    | none =>
      show (SparseMatrix.mk a.rows b.cols []).val i j = dotProd a b i j
      have haz : ∀ k : Int, a.val i k = 0 := by
        intro k
        have hg := groupGet_groupRows a.elements hA.2.2.2 i k
        rw [groupGet, hgr] at hg
        exact val_of_alGet_none a i k hg.symm
      have hsum : dotProd a b i j = 0 := by
        apply List.sum_eq_zero
        intro x hx
        rcases List.mem_map.1 hx with ⟨k, _, hk⟩
        rw [← hk, haz (k : Int), zero_mul]
      rw [hsum]
      simp [SparseMatrix.val, alGet]
    | some rowi =>
      cases hgc : alGet (groupCols b.elements) j with
      | none =>
        show (SparseMatrix.mk a.rows b.cols []).val i j = dotProd a b i j
        have hbz : ∀ k : Int, b.val k j = 0 := by
          intro k
          have hg := groupGet_groupCols b.elements hB.2.2.2 j k
          rw [groupGet, hgc] at hg
          exact val_of_alGet_none b k j hg.symm
        have hsum : dotProd a b i j = 0 := by
          apply List.sum_eq_zero
          intro x hx
          rcases List.mem_map.1 hx with ⟨k, _, hk⟩
          rw [← hk, hbz (k : Int), mul_zero]
        rw [hsum]
        simp [SparseMatrix.val, alGet]
      | some colj =>
        show dotList rowi colj = dotProd a b i j
        have hrowget : ∀ k : Int, alGet rowi k = alGet a.elements (i, k) := by
          intro k
          have hg := groupGet_groupRows a.elements hA.2.2.2 i k
          rw [groupGet, hgr] at hg
          exact hg
        have hcolget : ∀ k : Int, alGet colj k = alGet b.elements (k, j) := by
          intro k
          have hg := groupGet_groupCols b.elements hB.2.2.2 j k
          rw [groupGet, hgc] at hg
          exact hg
        have hrnd : (rowi.map Prod.fst).Nodup :=
          hinner (i, rowi) (mem_of_alGet_eq_some _ _ _ hgr)
        rw [dotList_eq_sum]
        have hmap1 : rowi.map (fun kv => kv.2 * (alGet colj kv.1).getD 0) =
            rowi.map (fun kv => a.val i kv.1 * b.val kv.1 j) := by
          apply List.map_congr_left
          intro kv hkv
          have h1 : alGet rowi kv.1 = some kv.2 :=
            alGet_eq_some_of_mem rowi kv.1 kv.2 hrnd
              (by rw [show (kv.1, kv.2) = kv from rfl]; exact hkv)
          have h2 : a.val i kv.1 = kv.2 :=
            val_of_alGet_some a i kv.1 kv.2 (by rw [← hrowget kv.1]; exact h1)
          rw [h2, hcolget kv.1]
          rfl
        rw [hmap1]
        have hmap2 : rowi.map (fun kv => a.val i kv.1 * b.val kv.1 j) =
            (rowi.map Prod.fst).map (fun k => a.val i k * b.val k j) := by
          rw [List.map_map]
          rfl
        rw [hmap2]
        have hcast : ((a.cols.toNat : Nat) : Int) = a.cols :=
          Int.toNat_of_nonneg hA.2.1
        exact sum_over_keys_eq_range (rowi.map Prod.fst) hrnd a.cols.toNat
          (fun k => a.val i k * b.val k j)
          (fun k hk => by
            rcases List.mem_map.1 hk with ⟨kv, hkv, hkk⟩
            have h1 : alGet rowi k = some kv.2 := by
              rw [← hkk]
              exact alGet_eq_some_of_mem rowi kv.1 kv.2 hrnd
                (by rw [show (kv.1, kv.2) = kv from rfl]; exact hkv)
            have h2 : ((i, k), kv.2) ∈ a.elements :=
              mem_of_alGet_eq_some a.elements (i, k) kv.2
                (by rw [← hrowget k]; exact h1)
            have := hA.2.2.1 _ h2
            exact ⟨this.2.2.1, by rw [hcast]; exact this.2.2.2.1⟩)
          (fun k _ _ hnk => by
            have h1 : alGet rowi k = none :=
              (alGet_eq_none_iff rowi k).2 hnk
            have h2 : a.val i k = 0 :=
              val_of_alGet_none a i k (by rw [← hrowget k]; exact h1)
            show a.val i k * b.val k j = 0
            rw [h2, zero_mul])
  · intro hempty
    rcases hempty with he | he
    · have hgr : groupRows a.elements = [] := by rw [he]; rfl
      rw [hgr] at hrun
      have h2 : (Except.ok (SparseMatrix.mk a.rows b.cols []) :
          Except (List Char) SparseMatrix) = Except.ok m := by
        rw [← hrun]; rfl
      have hm0 : m = SparseMatrix.mk a.rows b.cols [] := by
        injection h2 with h3
        exact h3.symm
      rw [hm0]
    · have hgc : groupCols b.elements = [] := by rw [he]; rfl
      rw [hgc] at hrun
      have h2 : (Except.ok m : Except (List Char) SparseMatrix) =
          Except.ok (SparseMatrix.mk a.rows b.cols []) := by
        rw [← hrun]
        exact mulOuter_nil_cols (groupRows a.elements) _
      have hm0 : m = SparseMatrix.mk a.rows b.cols [] := by
        injection h2
      rw [hm0]

/-! ### Claim C1 -/

/-- C1: for well-formed operands with `a.cols = b.rows`, `multiply` returns
a matrix of dimensions `a.rows × b.cols`; at every in-bounds coordinate
`get_element` reads the dot product over k of `a`'s entry (i, k) times
`b`'s entry (k, j), absent entries counting as 0; coordinates whose dot
product is 0 are not stored; and if either operand has no stored entries
the result has no stored entries. -/
theorem C1_multiply_dot_product (a b : SparseMatrix) (hA : a.Wf) (hB : b.Wf)
    (hd : a.cols = b.rows) :
    ∃ m, a.multiply b = Except.ok m ∧ m.rows = a.rows ∧ m.cols = b.cols ∧
      (∀ i j : Int, 0 ≤ i → i < a.rows → 0 ≤ j → j < b.cols →
        m.get_element i j = Except.ok (dotProd a b i j)) ∧
      (∀ i j : Int, dotProd a b i j = 0 → (i, j) ∉ m.keys) ∧
      ((a.elements = [] ∨ b.elements = []) → m.elements = []) := by
  obtain ⟨m, hrun, hmr, hmc, hmWf, hval, hemp⟩ := multiply_spec a b hA hB hd
  refine ⟨m, hrun, hmr, hmc, ?_, ?_, hemp⟩
  · intro i j h1 h2 h3 h4
    have hvalid : m.validIndices i j = true := by
      rw [validIndices_iff, hmr, hmc]
      exact ⟨h1, h2, h3, h4⟩
    rw [get_element_eq_ok m i j hvalid, hval i j]
  · intro i j hz
    exact val_zero_not_mem m hmWf i j ((hval i j).trans hz)

/-- Witness for C1 at `A = [[1,0],[0,2]]`, `B = [[3,4],[5,6]]`. -/
theorem C1_multiply_dot_product_witness :
    ∃ m, (SparseMatrix.mk 2 2 [((0, 0), 1), ((1, 1), 2)]).multiply
        ⟨2, 2, [((0, 0), 3), ((0, 1), 4), ((1, 0), 5), ((1, 1), 6)]⟩ =
        Except.ok m ∧
      m.rows = (SparseMatrix.mk 2 2 [((0, 0), 1), ((1, 1), 2)]).rows ∧
      m.cols = (SparseMatrix.mk 2 2
        [((0, 0), 3), ((0, 1), 4), ((1, 0), 5), ((1, 1), 6)]).cols ∧
      (∀ i j : Int, 0 ≤ i →
        i < (SparseMatrix.mk 2 2 [((0, 0), 1), ((1, 1), 2)]).rows → 0 ≤ j →
        j < (SparseMatrix.mk 2 2
          [((0, 0), 3), ((0, 1), 4), ((1, 0), 5), ((1, 1), 6)]).cols →
        m.get_element i j = Except.ok
          (dotProd ⟨2, 2, [((0, 0), 1), ((1, 1), 2)]⟩
            ⟨2, 2, [((0, 0), 3), ((0, 1), 4), ((1, 0), 5), ((1, 1), 6)]⟩
            i j)) ∧
      (∀ i j : Int, dotProd ⟨2, 2, [((0, 0), 1), ((1, 1), 2)]⟩
          ⟨2, 2, [((0, 0), 3), ((0, 1), 4), ((1, 0), 5), ((1, 1), 6)]⟩
          i j = 0 → (i, j) ∉ m.keys) ∧
      (((SparseMatrix.mk 2 2 [((0, 0), 1), ((1, 1), 2)]).elements = [] ∨
        (SparseMatrix.mk 2 2
          [((0, 0), 3), ((0, 1), 4), ((1, 0), 5), ((1, 1), 6)]).elements
          = []) → m.elements = []) :=
  C1_multiply_dot_product ⟨2, 2, [((0, 0), 1), ((1, 1), 2)]⟩
    ⟨2, 2, [((0, 0), 3), ((0, 1), 4), ((1, 0), 5), ((1, 1), 6)]⟩
    (by decide) (by decide) rfl

/-! ### Invariant preservation (claim C4) and dimension errors (C6) -/

theorem set_element_ok_Wf (m : SparseMatrix) (r c v : Int)
    (m' : SparseMatrix) (hWf : m.Wf)
    (h : m.set_element r c v = Except.ok m') : m'.Wf := by
  by_cases hvalid : m.validIndices r c = true
  · rw [set_element_eq_ok m r c v hvalid] at h
    injection h with h2
    rw [← h2]
    exact setPure_Wf m r c v hWf ((validIndices_iff m r c).1 hvalid)
  · rw [set_element_eq_error m r c v (by simpa using hvalid)] at h
    cases h

theorem loadElems_Wf (lines : List (List Char)) :
    ∀ (m : SparseMatrix) (n : Nat) (m' : SparseMatrix), m.Wf →
    SparseMatrix.loadElems m n lines = Except.ok m' → m'.Wf := by
  induction lines with
  | nil =>
    intro m n m' hWf h
    simp only [SparseMatrix.loadElems] at h
    injection h with h2
    rw [← h2]
    exact hWf
  | cons l rest ih =>
    intro m n m' hWf h
    simp only [SparseMatrix.loadElems] at h
    split at h
    · exact ih _ _ _ hWf h
    · split at h
      · cases h
      · split at h
        · split at h
          · split at h
            · exact ih _ _ _ (set_element_ok_Wf m _ _ _ _ hWf (by assumption)) h
            · cases h
          · cases h
        · cases h

theorem loadFromLines_Wf (lines : List (List Char)) (m : SparseMatrix)
    (h : loadFromLines lines = Except.ok m) : m.Wf := by
  simp only [loadFromLines] at h
  split at h
  · cases h
  · split at h
    · split at h
      · cases h
      · refine loadElems_Wf _ _ _ _ ⟨?_, ?_, by simp, by simp [SparseMatrix.keys]⟩ h
        · dsimp only
          omega
        · dsimp only
          omega
    · cases h

/-- C4: every operation preserves the representation invariant: dimension
construction, load, `set_element`, `add`, `subtract` and `multiply` only
produce matrices whose stored keys are in bounds, whose stored values are
non-zero (zero results are pruned), and whose dimensions are non-negative. -/
theorem C4_invariant_preserved :
    (∀ (r c : Int) (m : SparseMatrix),
      SparseMatrix.construct r c = Except.ok m → m.Wf) ∧
    (∀ (lines : List (List Char)) (m : SparseMatrix),
      loadFromLines lines = Except.ok m → m.Wf) ∧
    (∀ (m : SparseMatrix) (r c v : Int) (m' : SparseMatrix), m.Wf →
      m.set_element r c v = Except.ok m' → m'.Wf) ∧
    (∀ a b s : SparseMatrix, a.Wf → b.Wf →
      a.add b = Except.ok s → s.Wf) ∧
    (∀ a b s : SparseMatrix, a.Wf → b.Wf →
      a.subtract b = Except.ok s → s.Wf) ∧
    (∀ a b s : SparseMatrix, a.Wf → b.Wf →
      a.multiply b = Except.ok s → s.Wf) := by
  refine ⟨?_, ?_, ?_, ?_, ?_, ?_⟩
  · intro r c m h
    simp only [SparseMatrix.construct] at h
    split at h
    · cases h
    · injection h with h2
      rw [← h2]
      refine ⟨by dsimp only; omega, by dsimp only; omega, by simp,
        by simp [SparseMatrix.keys]⟩
  · exact fun lines m h => loadFromLines_Wf lines m h
  · exact fun m r c v m' hWf h => set_element_ok_Wf m r c v m' hWf h
  · intro a b s hA hB h
    by_cases hdim : a.rows = b.rows ∧ a.cols = b.cols
    · obtain ⟨s', hs', _, _, hWf', _⟩ := add_spec a b hA hB hdim.1 hdim.2
      rw [hs'] at h
      injection h with h2
      rw [← h2]
      exact hWf'
    · have hcond : a.rows ≠ b.rows ∨ a.cols ≠ b.cols := by tauto
      simp only [SparseMatrix.add, if_pos hcond] at h
      cases h
  · intro a b s hA hB h
    by_cases hdim : a.rows = b.rows ∧ a.cols = b.cols
    · obtain ⟨s', hs', _, _, hWf', _⟩ := subtract_spec a b hA hB hdim.1 hdim.2
      rw [hs'] at h
      injection h with h2
      rw [← h2]
      exact hWf'
    · have hcond : a.rows ≠ b.rows ∨ a.cols ≠ b.cols := by tauto
      simp only [SparseMatrix.subtract, if_pos hcond] at h
      cases h
  · intro a b s hA hB h
    by_cases hdim : a.cols = b.rows
    · obtain ⟨s', hs', _, _, hWf', _, _⟩ := multiply_spec a b hA hB hdim
      rw [hs'] at h
      injection h with h2
      rw [← h2]
      exact hWf'
    · simp only [SparseMatrix.multiply, if_pos hdim] at h
      cases h

/-- C6: `add` and `subtract` fail exactly when the dimensions differ,
`multiply` fails exactly when `a.cols ≠ b.rows` with a message naming the
two dimensions that must agree; the embedded operations are pure functions
of the operands, so the operands are unchanged in success and failure. -/
theorem C6_dimension_errors (a b : SparseMatrix) (hA : a.Wf) (hB : b.Wf) :
    ((∃ e, a.add b = Except.error e) ↔
      (a.rows ≠ b.rows ∨ a.cols ≠ b.cols)) ∧
    ((∃ e, a.subtract b = Except.error e) ↔
      (a.rows ≠ b.rows ∨ a.cols ≠ b.cols)) ∧
    ((∃ e, a.multiply b = Except.error e) ↔ a.cols ≠ b.rows) ∧
    (a.cols ≠ b.rows → a.multiply b = Except.error
      ("Invalid dimensions for multiplication: Matrix 1 columns (".data
        ++ intToChars a.cols ++ ") must equal Matrix 2 rows (".data
        ++ intToChars b.rows ++ ")".data)) := by
  refine ⟨⟨?_, ?_⟩, ⟨?_, ?_⟩, ⟨?_, ?_⟩, ?_⟩
  · rintro ⟨e, he⟩
    by_contra hdim
    push_neg at hdim
    obtain ⟨s, hs, _⟩ := add_spec a b hA hB hdim.1 hdim.2
    rw [hs] at he
    cases he
  · intro hdim
    refine ⟨("Matrix dimensions must match for addition: (".data
      ++ intToChars a.rows ++ ", ".data ++ intToChars a.cols
      ++ ") != (".data ++ intToChars b.rows ++ ", ".data
      ++ intToChars b.cols ++ ")".data), ?_⟩
    simp only [SparseMatrix.add, if_pos hdim]
  · rintro ⟨e, he⟩
    by_contra hdim
    push_neg at hdim
    obtain ⟨s, hs, _⟩ := subtract_spec a b hA hB hdim.1 hdim.2
    rw [hs] at he
    cases he
  · intro hdim
    refine ⟨("Matrix dimensions must match for subtraction: (".data
      ++ intToChars a.rows ++ ", ".data ++ intToChars a.cols
      ++ ") != (".data ++ intToChars b.rows ++ ", ".data
      ++ intToChars b.cols ++ ")".data), ?_⟩
    simp only [SparseMatrix.subtract, if_pos hdim]
  · rintro ⟨e, he⟩
    by_contra hdim
    obtain ⟨s, hs, _⟩ := multiply_spec a b hA hB hdim
    rw [hs] at he
    cases he
  · intro hdim
    refine ⟨("Invalid dimensions for multiplication: Matrix 1 columns (".data
      ++ intToChars a.cols ++ ") must equal Matrix 2 rows (".data
      ++ intToChars b.rows ++ ")".data), ?_⟩
    simp only [SparseMatrix.multiply, if_pos hdim]
  · intro hdim
    simp only [SparseMatrix.multiply, if_pos hdim]

/-- Witness for C6 at a 2x3 and a 2x2 matrix (both checks fail). -/
theorem C6_dimension_errors_witness :
    ((∃ e, (SparseMatrix.mk 2 3 []).add ⟨2, 2, []⟩ = Except.error e) ↔
      ((2 : Int) ≠ 2 ∨ (3 : Int) ≠ 2)) ∧
    ((∃ e, (SparseMatrix.mk 2 3 []).subtract ⟨2, 2, []⟩ =
        Except.error e) ↔ ((2 : Int) ≠ 2 ∨ (3 : Int) ≠ 2)) ∧
    ((∃ e, (SparseMatrix.mk 2 3 []).multiply ⟨2, 2, []⟩ =
        Except.error e) ↔ (3 : Int) ≠ 2) ∧
    ((3 : Int) ≠ 2 → (SparseMatrix.mk 2 3 []).multiply ⟨2, 2, []⟩ =
      Except.error
        ("Invalid dimensions for multiplication: Matrix 1 columns (".data
          ++ intToChars 3 ++ ") must equal Matrix 2 rows (".data
          ++ intToChars 2 ++ ")".data)) :=
  C6_dimension_errors ⟨2, 3, []⟩ ⟨2, 2, []⟩ (by decide) (by decide)

/-! ### Digit rendering and integer parsing round trip -/

theorem digitChar_toNat (d : Nat) (h : d < 10) :
    48 ≤ (digitChar d).toNat ∧ (digitChar d).toNat ≤ 57 := by
  interval_cases d <;> decide

theorem charDigit_digitChar (d : Nat) (h : d < 10) :
    charDigit? (digitChar d) = some d := by
  interval_cases d <;> decide

theorem natToCharsAux_fuel (n : Nat) :
    ∀ fuel fuel', n < fuel → n < fuel' →
    natToCharsAux n fuel = natToCharsAux n fuel' := by
  induction n using Nat.strong_induction_on with
  | _ n ih =>
    intro fuel fuel' h1 h2
    match fuel, fuel' with
    | 0, _ => omega
    | _ + 1, 0 => omega
    | f1 + 1, f2 + 1 =>
      simp only [natToCharsAux]
      by_cases h10 : n < 10
      · simp [h10]
      · simp only [h10, if_false]
        rw [ih (n / 10) (by omega) f1 f2 (by omega) (by omega)]

theorem natToChars_eq (n : Nat) :
    natToChars n = if n < 10 then [digitChar n]
      else natToChars (n / 10) ++ [digitChar (n % 10)] := by
  show natToCharsAux n (n + 1) = _
  simp only [natToCharsAux]
  by_cases h10 : n < 10
  · simp [h10]
  · simp only [h10, if_false]
    show _ ++ _ = natToCharsAux (n / 10) (n / 10 + 1) ++ _
    rw [natToCharsAux_fuel (n / 10) n (n / 10 + 1) (by omega) (by omega)]

theorem natToChars_ne_nil (n : Nat) : natToChars n ≠ [] := by
  rw [natToChars_eq]
  by_cases h : n < 10 <;> simp [h]

theorem natToChars_digits (n : Nat) :
    ∀ c ∈ natToChars n, 48 ≤ c.toNat ∧ c.toNat ≤ 57 := by
  induction n using Nat.strong_induction_on with
  | _ n ih =>
    rw [natToChars_eq]
    by_cases h : n < 10
    · simp only [h, if_true]
      intro c hc
      simp at hc
      subst hc
      exact digitChar_toNat n h
    · simp only [h, if_false]
      intro c hc
      rcases List.mem_append.1 hc with hm | hm
      · exact ih (n / 10) (by omega) c hm
      · simp at hm
        subst hm
        exact digitChar_toNat (n % 10) (by omega)

theorem digitsVal_append (l1 l2 : List Char) :
    ∀ acc, digitsVal (l1 ++ l2) acc =
      match digitsVal l1 acc with
      | some a => digitsVal l2 a
      | none => none := by
  induction l1 with
  | nil => intro acc; simp [digitsVal]
  | cons c cs ih =>
    intro acc
    simp only [List.cons_append, digitsVal]
    cases hg : charDigit? c with
    | none => simp
    | some d => simp [ih]

theorem digitsVal_natToChars (n : Nat) :
    ∀ acc, digitsVal (natToChars n) acc =
      some (acc * 10 ^ (natToChars n).length + n) := by
  induction n using Nat.strong_induction_on with
  | _ n ih =>
    intro acc
    rw [natToChars_eq]
    by_cases h : n < 10
    · simp only [h, if_true]
      simp [digitsVal, charDigit_digitChar n h]
    · simp only [h, if_false]
      rw [digitsVal_append]
      rw [ih (n / 10) (by omega) acc]
      have hm10 : n % 10 < 10 := by omega
      simp only [digitsVal, charDigit_digitChar (n % 10) hm10]
      have hmod : n / 10 * 10 + n % 10 = n := by omega
      rw [List.length_append, List.length_singleton]
      congr 1
      have hexp : (acc * 10 ^ (natToChars (n / 10)).length + n / 10) * 10
            + n % 10 =
          acc * 10 ^ ((natToChars (n / 10)).length + 1)
            + (n / 10 * 10 + n % 10) := by
        rw [pow_succ]
        ring
      rw [hexp, hmod]

theorem parseDigits_natToChars (n : Nat) :
    parseDigits (natToChars n) = some n := by
  cases heq : natToChars n with
  | nil => exact absurd heq (natToChars_ne_nil n)
  | cons c cs =>
    have hdv := digitsVal_natToChars n 0
    rw [heq] at hdv
    show digitsVal (c :: cs) 0 = some n
    simpa using hdv

theorem isPySpace_false_of_ge (c : Char) (h : 40 ≤ c.toNat) :
    isPySpace c = false := by
  have key : ∀ d : Char, d.toNat < 40 → ¬c = d := by
    intro d hd he
    rw [he] at h
    omega
  simp [isPySpace, key ' ' (by decide), key '\t' (by decide),
    key '\n' (by decide), key '\r' (by decide),
    key '\x0b' (by decide), key '\x0c' (by decide)]

theorem intToChars_chars (n : Int) :
    ∀ c ∈ intToChars n, c.toNat = 45 ∨ (48 ≤ c.toNat ∧ c.toNat ≤ 57) := by
  cases n with
  | ofNat m =>
    intro c hc
    exact Or.inr (natToChars_digits m c (by simpa [intToChars] using hc))
  | negSucc m =>
    intro c hc
    simp only [intToChars, List.mem_cons] at hc
    rcases hc with hc | hc
    · subst hc; left; decide
    · exact Or.inr (natToChars_digits (m + 1) c hc)

theorem intToChars_no_space (n : Int) :
    ∀ c ∈ intToChars n, isPySpace c = false := fun c hc =>
  isPySpace_false_of_ge c
    (by rcases intToChars_chars n c hc with h | h <;> omega)

theorem intToChars_ne_nil (n : Int) : intToChars n ≠ [] := by
  cases n with
  | ofNat m => simpa [intToChars] using natToChars_ne_nil m
  | negSucc m => simp [intToChars]

theorem dropLeadingWs_id (l : List Char)
    (h : ∀ c ∈ l, isPySpace c = false) : dropLeadingWs l = l := by
  cases l with
  | nil => rfl
  | cons c cs => simp [dropLeadingWs, h c (by simp)]

theorem stripWs_id (l : List Char) (h : ∀ c ∈ l, isPySpace c = false) :
    stripWs l = l := by
  rw [stripWs, dropLeadingWs_id l.reverse
    (fun c hc => h c (List.mem_reverse.1 hc)), List.reverse_reverse,
    dropLeadingWs_id l h]

theorem parsePyInt_cons (c : Char) (rest : List Char)
    (h : stripWs (c :: rest) = c :: rest) :
    parsePyInt (c :: rest) =
      if c = '-' then (parseDigits rest).map (fun n => -(n : Int))
      else if c = '+' then (parseDigits rest).map (fun n => (n : Int))
      else (parseDigits (c :: rest)).map (fun n => (n : Int)) := by
  unfold parsePyInt
  rw [h]

theorem parsePyInt_intToChars (n : Int) :
    parsePyInt (intToChars n) = some n := by
  have hstrip : stripWs (intToChars n) = intToChars n :=
    stripWs_id _ (intToChars_no_space n)
  cases n with
  | ofNat m =>
    show parsePyInt (natToChars m) = some (Int.ofNat m)
    cases heq : natToChars m with
    | nil => exact absurd heq (natToChars_ne_nil m)
    | cons c cs =>
      have hstrip2 : stripWs (c :: cs) = c :: cs := by
        rw [← heq]
        exact hstrip
      have hcd := natToChars_digits m c (by rw [heq]; simp)
      have hc1 : ¬c = '-' := fun he => by
        rw [he] at hcd
        revert hcd
        decide
      have hc2 : ¬c = '+' := fun he => by
        rw [he] at hcd
        revert hcd
        decide
      rw [parsePyInt_cons c cs hstrip2, if_neg hc1, if_neg hc2,
        ← heq, parseDigits_natToChars]
      rfl
  | negSucc m =>
    show parsePyInt ('-' :: natToChars (m + 1)) = some (Int.negSucc m)
    rw [parsePyInt_cons '-' (natToChars (m + 1)) hstrip, if_pos rfl,
      parseDigits_natToChars]
    show some (-(((m + 1 : Nat)) : Int)) = some (Int.negSucc m)
    congr 1

/-! ### Element-line rendering and parsing -/

theorem removeSpaces_append (l1 l2 : List Char) :
    removeSpaces (l1 ++ l2) = removeSpaces l1 ++ removeSpaces l2 := by
  induction l1 with
  | nil => simp [removeSpaces]
  | cons c cs ih =>
    by_cases h : c = ' ' <;> simp [removeSpaces, h, ih]

theorem removeSpaces_id (l : List Char) (h : ∀ c ∈ l, ¬c = ' ') :
    removeSpaces l = l := by
  induction l with
  | nil => rfl
  | cons c cs ih =>
    simp [removeSpaces, h c (by simp),
      ih (fun d hd => h d (by simp [hd]))]

theorem intToChars_not_space_comma (n : Int) :
    ∀ c ∈ intToChars n, ¬c = ' ' ∧ ¬c = ',' := by
  intro c hc
  have h := intToChars_chars n c hc
  constructor
  · intro he
    rw [he] at h
    revert h
    decide
  · intro he
    rw [he] at h
    revert h
    decide

theorem splitOnComma_no_comma (l : List Char) (h : ∀ c ∈ l, ¬c = ',') :
    splitOnComma l = [l] := by
  induction l with
  | nil => rfl
  | cons c cs ih =>
    have hc := h c (by simp)
    simp only [splitOnComma, if_neg hc]
    rw [ih (fun d hd => h d (by simp [hd]))]

theorem splitOnComma_append (a rest : List Char)
    (h : ∀ c ∈ a, ¬c = ',') :
    splitOnComma (a ++ ',' :: rest) = a :: splitOnComma rest := by
  induction a with
  | nil => simp [splitOnComma]
  | cons c cs ih =>
    have hc := h c (by simp)
    simp only [List.cons_append, splitOnComma, if_neg hc, List.append_eq]
    rw [ih (fun d hd => h d (by simp [hd]))]

theorem startsWith_nil (l : List Char) : startsWith l [] = true := by
  cases l <;> rfl

theorem startsWith_append (p x : List Char) :
    startsWith (p ++ x) p = true := by
  induction p with
  | nil => simp [startsWith_nil]
  | cons c cs ih => simp [startsWith, ih]

theorem parseEntry_fmt (r c v : Int) :
    parseEntry (intToChars r ++ ',' ::
      (intToChars c ++ ',' :: intToChars v)) = some (r, c, v) := by
  unfold parseEntry
  rw [splitOnComma_append _ _
      (fun d hd => (intToChars_not_space_comma r d hd).2),
    splitOnComma_append _ _
      (fun d hd => (intToChars_not_space_comma c d hd).2),
    splitOnComma_no_comma _
      (fun d hd => (intToChars_not_space_comma v d hd).2)]
  simp [parsePyInt_intToChars]

theorem fmtEntry_eq (p : (Int × Int) × Int) :
    fmtEntry p = '(' :: ((intToChars p.1.1 ++ ',' :: ' ' ::
      (intToChars p.1.2 ++ ',' :: ' ' :: intToChars p.2)) ++ [')']) := by
  show ['('] ++ intToChars p.1.1 ++ [',', ' '] ++ intToChars p.1.2
      ++ [',', ' '] ++ intToChars p.2 ++ [')'] = _
  simp

theorem stripWs_cons_concat (c : Char) (mid : List Char) (d : Char)
    (hc : isPySpace c = false) (hd : isPySpace d = false) :
    stripWs (c :: (mid ++ [d])) = c :: (mid ++ [d]) := by
  have h1 : (c :: (mid ++ [d])).reverse = d :: (mid.reverse ++ [c]) := by
    simp
  rw [stripWs, h1]
  simp only [dropLeadingWs, hd, Bool.false_eq_true, if_false]
  have h2 : (d :: (mid.reverse ++ [c])).reverse = c :: (mid ++ [d]) := by
    simp
  rw [h2]
  simp only [dropLeadingWs, hc, Bool.false_eq_true, if_false]

theorem stripWs_fmtEntry (p : (Int × Int) × Int) :
    stripWs (fmtEntry p) = fmtEntry p := by
  rw [fmtEntry_eq]
  exact stripWs_cons_concat '(' _ ')' (by decide) (by decide)

theorem removeSpaces_inner (p : (Int × Int) × Int) :
    removeSpaces (intToChars p.1.1 ++ ',' :: ' ' ::
      (intToChars p.1.2 ++ ',' :: ' ' :: intToChars p.2)) =
    intToChars p.1.1 ++ ',' ::
      (intToChars p.1.2 ++ ',' :: intToChars p.2) := by
  rw [removeSpaces_append,
    removeSpaces_id _ (fun d hd => (intToChars_not_space_comma _ d hd).1)]
  congr 1
  have h1 : removeSpaces (',' :: ' ' ::
      (intToChars p.1.2 ++ ',' :: ' ' :: intToChars p.2)) =
      ',' :: removeSpaces (intToChars p.1.2 ++ ',' :: ' ' ::
        intToChars p.2) := by
    simp [removeSpaces]
  rw [h1, removeSpaces_append,
    removeSpaces_id _ (fun d hd => (intToChars_not_space_comma _ d hd).1)]
  congr 2
  have h2 : removeSpaces (',' :: ' ' :: intToChars p.2) =
      ',' :: removeSpaces (intToChars p.2) := by
    simp [removeSpaces]
  rw [h2,
    removeSpaces_id _ (fun d hd => (intToChars_not_space_comma _ d hd).1)]

/-- The successive `set_element` calls the element loop performs, as a pure
fold (each line's parsed triple applied in order). -/
def setFold (m : SparseMatrix) : List ((Int × Int) × Int) → SparseMatrix
  | [] => m
  | p :: rest => setFold (setPure m p.1.1 p.1.2 p.2) rest

theorem setFold_rows (L : List ((Int × Int) × Int)) :
    ∀ m : SparseMatrix, (setFold m L).rows = m.rows := by
  induction L with
  | nil => intro m; rfl
  | cons p rest ih =>
    intro m
    rw [setFold, ih, setPure_rows]

theorem setFold_cols (L : List ((Int × Int) × Int)) :
    ∀ m : SparseMatrix, (setFold m L).cols = m.cols := by
  induction L with
  | nil => intro m; rfl
  | cons p rest ih =>
    intro m
    rw [setFold, ih, setPure_cols]

theorem loadElems_fmt_cons (m : SparseMatrix) (n : Nat)
    (p : (Int × Int) × Int) (rest : List (List Char))
    (hb : 0 ≤ p.1.1 ∧ p.1.1 < m.rows ∧ 0 ≤ p.1.2 ∧ p.1.2 < m.cols) :
    SparseMatrix.loadElems m n (fmtEntry p :: rest) =
      SparseMatrix.loadElems (setPure m p.1.1 p.1.2 p.2) (n + 1) rest := by
  simp only [SparseMatrix.loadElems]
  rw [stripWs_fmtEntry]
  have hne : ¬fmtEntry p = [] := by rw [fmtEntry_eq]; simp
  rw [if_neg hne]
  have h1 : startsWith (fmtEntry p) "(".data = true := by
    rw [fmtEntry_eq]
    simp [startsWith, startsWith_nil]
  have h2 : startsWith (fmtEntry p).reverse ")".data = true := by
    rw [fmtEntry_eq]
    simp [startsWith, startsWith_nil]
  rw [h1, h2]
  simp only [Bool.and_self, Bool.not_true, Bool.false_eq_true, if_false]
  have h3 : (fmtEntry p).tail.dropLast = intToChars p.1.1 ++ ',' :: ' ' ::
      (intToChars p.1.2 ++ ',' :: ' ' :: intToChars p.2) := by
    rw [fmtEntry_eq, List.tail_cons, List.dropLast_concat]
  rw [h3, removeSpaces_inner, parseEntry_fmt]
  have hvalid : m.validIndices p.1.1 p.1.2 = true := by
    rw [validIndices_iff]
    exact hb
  simp only [if_pos hb, set_element_eq_ok m p.1.1 p.1.2 p.2 hvalid]

theorem loadElems_fmt_append (L : List ((Int × Int) × Int)) :
    ∀ (m : SparseMatrix) (n : Nat) (rest : List (List Char)),
    (∀ p ∈ L, 0 ≤ p.1.1 ∧ p.1.1 < m.rows ∧ 0 ≤ p.1.2 ∧ p.1.2 < m.cols) →
    SparseMatrix.loadElems m n (L.map fmtEntry ++ rest) =
      SparseMatrix.loadElems (setFold m L) (n + L.length) rest := by
  induction L with
  | nil => intro m n rest _; simp [setFold]
  | cons p L2 ih =>
    intro m n rest hb
    rw [List.map_cons, List.cons_append,
      loadElems_fmt_cons m n p _ (hb p (by simp)),
      ih (setPure m p.1.1 p.1.2 p.2) (n + 1) rest
        (fun q hq => by
          rw [setPure_rows, setPure_cols]
          exact hb q (by simp [hq]))]
    rw [setFold]
    congr 1
    simp
    omega

theorem loadElems_fmt_list (L : List ((Int × Int) × Int))
    (m : SparseMatrix) (n : Nat)
    (hb : ∀ p ∈ L, 0 ≤ p.1.1 ∧ p.1.1 < m.rows ∧ 0 ≤ p.1.2 ∧
      p.1.2 < m.cols) :
    SparseMatrix.loadElems m n (L.map fmtEntry) =
      Except.ok (setFold m L) := by
  have h := loadElems_fmt_append L m n [] hb
  rw [List.append_nil] at h
  rw [h]
  rfl

theorem setFold_elements_append (L : List ((Int × Int) × Int)) :
    ∀ m : SparseMatrix, m.keys.Nodup →
    (∀ p ∈ L, p.2 ≠ 0 ∧ p.1 ∉ m.keys) →
    (L.map Prod.fst).Nodup →
    (setFold m L).elements = m.elements ++ L := by
  induction L with
  | nil => intro m _ _ _; simp [setFold]
  | cons p L2 ih =>
    intro m hnd hfresh hLnd
    have hp := hfresh p (by simp)
    have hsp : (setPure m p.1.1 p.1.2 p.2).elements =
        m.elements ++ [p] := by
      simp only [setPure, if_pos hp.1]
      have := alSet_eq_append_of_not_mem m.elements (p.1.1, p.1.2) p.2
        (by
          have hpe : (p.1.1, p.1.2) = p.1 := rfl
          rw [hpe]
          exact hp.2)
      simp [this]
    have hspk : (setPure m p.1.1 p.1.2 p.2).keys =
        m.keys ++ [p.1] := by
      show (setPure m p.1.1 p.1.2 p.2).elements.map Prod.fst = _
      rw [hsp]
      simp [SparseMatrix.keys]
    simp at hLnd
    rw [setFold, ih (setPure m p.1.1 p.1.2 p.2)
      (by
        rw [hspk]
        simp [List.nodup_append, hnd]
        intro he
        exact hp.2 he)
      (fun q hq => by
        rw [hspk]
        refine ⟨(hfresh q (by simp [hq])).1, ?_⟩
        simp only [List.mem_append, List.mem_singleton]
        rintro (hm | hm)
        · exact (hfresh q (by simp [hq])).2 hm
        · exact hLnd.1 q.2 (by
            have hqe : q = (q.1, q.2) := rfl
            rw [hqe, hm] at hq
            exact hq))
      hLnd.2, hsp]
    simp

theorem setFold_nodup (L : List ((Int × Int) × Int)) :
    ∀ m : SparseMatrix, m.keys.Nodup → (setFold m L).keys.Nodup := by
  induction L with
  | nil => intro m h; exact h
  | cons p L2 ih =>
    intro m h
    rw [setFold]
    exact ih _ (setPure_nodup m p.1.1 p.1.2 p.2 h)

theorem setFold_alGet (L : List ((Int × Int) × Int)) :
    ∀ m : SparseMatrix, m.keys.Nodup → ∀ k : Int × Int,
    alGet (setFold m L).elements k =
      match alGet L.reverse k with
      | some v => if v = 0 then none else some v
      | none => alGet m.elements k := by
  induction L with
  | nil => intro m _ k; simp [setFold, alGet]
  | cons p L2 ih =>
    intro m hnd k
    rw [setFold, ih _ (setPure_nodup m p.1.1 p.1.2 p.2 hnd) k]
    have hrev : (p :: L2).reverse = L2.reverse ++ [p] := by simp
    rw [hrev, alGet_append]
    cases hg : alGet L2.reverse k with
    | some w => rfl
    | none =>
      show alGet (setPure m p.1.1 p.1.2 p.2).elements k = _
      rw [setPure_alGet m p.1.1 p.1.2 p.2 hnd k]
      have hpe : (p.1.1, p.1.2) = p.1 := rfl
      rw [hpe]
      by_cases hk : p.1 = k
      · rw [if_pos hk]
        show _ = match alGet [p] k with
          | some v => if v = 0 then none else some v
          | none => alGet m.elements k
        simp [alGet, hk]
      · rw [if_neg hk]
        show _ = match alGet [p] k with
          | some v => if v = 0 then none else some v
          | none => alGet m.elements k
        simp [alGet, hk]

/-! ### Loading a saved matrix (claim C3) -/

theorem loadFromLines_header (R C : Int) (hR : 0 ≤ R) (hC : 0 ≤ C)
    (rest : List (List Char)) :
    loadFromLines (("rows=".data ++ intToChars R) ::
        ("cols=".data ++ intToChars C) :: rest) =
      SparseMatrix.loadElems ⟨R, C, []⟩ 3 rest := by
  have hws1 : ∀ c ∈ ("rows=".data ++ intToChars R),
      isPySpace c = false := by
    intro c hc
    rcases List.mem_append.1 hc with hm | hm
    · have hall : ∀ c ∈ "rows=".data, isPySpace c = false := by decide
      exact hall c hm
    · exact intToChars_no_space R c hm
  have hws2 : ∀ c ∈ ("cols=".data ++ intToChars C),
      isPySpace c = false := by
    intro c hc
    rcases List.mem_append.1 hc with hm | hm
    · have hall : ∀ c ∈ "cols=".data, isPySpace c = false := by decide
      exact hall c hm
    · exact intToChars_no_space C c hm
  simp only [loadFromLines, List.getD_cons_zero, List.getD_cons_succ,
    List.drop_succ_cons, List.drop_zero]
  rw [stripWs_id _ hws1, stripWs_id _ hws2, startsWith_append,
    startsWith_append]
  simp only [Bool.not_true, Bool.or_self, Bool.false_eq_true, if_false]
  have hd1 : ("rows=".data ++ intToChars R).drop 5 = intToChars R :=
    List.drop_left' (by rfl)
  have hd2 : ("cols=".data ++ intToChars C).drop 5 = intToChars C :=
    List.drop_left' (by rfl)
  rw [hd1, hd2, parsePyInt_intToChars, parsePyInt_intToChars]
  have hneg : ¬(R < 0 ∨ C < 0) := by omega
  simp only [if_neg hneg]

/-- C3: serializing a well-formed matrix with save and re-parsing the
produced lines yields a matrix with the same rows, the same cols, and the
same set of stored entries (a permutation of the original dict items); this
includes matrices with no stored entries. -/
theorem C3_save_load_roundtrip (m : SparseMatrix) (hWf : m.Wf) :
    ∃ m', loadFromLines m.saveLines = Except.ok m' ∧
      m'.rows = m.rows ∧ m'.cols = m.cols ∧
      m'.elements.Perm m.elements := by
  have hperm : (m.elements.mergeSort entryLE).Perm m.elements :=
    List.mergeSort_perm m.elements entryLE
  have hmem : ∀ p ∈ m.elements.mergeSort entryLE, p ∈ m.elements :=
    fun p hp => hperm.mem_iff.1 hp
  have hbounds : ∀ p ∈ m.elements.mergeSort entryLE,
      0 ≤ p.1.1 ∧
      p.1.1 < (SparseMatrix.mk m.rows m.cols []).rows ∧ 0 ≤ p.1.2 ∧
      p.1.2 < (SparseMatrix.mk m.rows m.cols []).cols := by
    intro p hp
    have hb := hWf.2.2.1 p (hmem p hp)
    exact ⟨hb.1, hb.2.1, hb.2.2.1, hb.2.2.2.1⟩
  have hload : loadFromLines m.saveLines = Except.ok
      (setFold ⟨m.rows, m.cols, []⟩ (m.elements.mergeSort entryLE)) := by
    show loadFromLines (("rows=".data ++ intToChars m.rows) ::
      ("cols=".data ++ intToChars m.cols) ::
      (m.elements.mergeSort entryLE).map fmtEntry) = _
    rw [loadFromLines_header m.rows m.cols hWf.1 hWf.2.1,
      loadElems_fmt_list _ _ _ hbounds]
  have hels : (setFold (SparseMatrix.mk m.rows m.cols [])
      (m.elements.mergeSort entryLE)).elements =
      m.elements.mergeSort entryLE := by
    have h := setFold_elements_append (m.elements.mergeSort entryLE)
      ⟨m.rows, m.cols, []⟩ (by simp [SparseMatrix.keys])
      (fun p hp => ⟨(hWf.2.2.1 p (hmem p hp)).2.2.2.2,
        by simp [SparseMatrix.keys]⟩)
      (by
        have hkperm : ((m.elements.mergeSort entryLE).map Prod.fst).Perm
            (m.elements.map Prod.fst) := hperm.map Prod.fst
        exact hkperm.nodup_iff.2 hWf.2.2.2)
    simpa using h
  refine ⟨_, hload, ?_, ?_, ?_⟩
  · rw [setFold_rows]
  · rw [setFold_cols]
  · rw [hels]
    exact hperm

/-- Witness for C3 at the zero matrix with rows = 3, cols = 3. -/
theorem C3_save_load_roundtrip_witness :
    ∃ m', loadFromLines (SparseMatrix.mk 3 3 []).saveLines =
        Except.ok m' ∧
      m'.rows = (SparseMatrix.mk 3 3 []).rows ∧
      m'.cols = (SparseMatrix.mk 3 3 []).cols ∧
      m'.elements.Perm (SparseMatrix.mk 3 3 []).elements :=
  C3_save_load_roundtrip ⟨3, 3, []⟩ (by decide)

/-! ### Claims C10 and C7 -/

/-- C10: for a source whose element lines are rendered in-bounds triples,
loading succeeds even when a coordinate repeats across lines, and the
resulting matrix holds, at each coordinate, the value of the last line for
it — the coordinate being absent from storage when that last value is 0
(so element lines with value 0 are accepted and store nothing). -/
theorem C10_duplicates_last_wins (R C : Int) (L : List ((Int × Int) × Int))
    (hR : 0 ≤ R) (hC : 0 ≤ C)
    (hb : ∀ p ∈ L, 0 ≤ p.1.1 ∧ p.1.1 < R ∧ 0 ≤ p.1.2 ∧ p.1.2 < C) :
    ∃ m, loadFromLines (("rows=".data ++ intToChars R) ::
        ("cols=".data ++ intToChars C) :: L.map fmtEntry) =
        Except.ok m ∧ m.rows = R ∧ m.cols = C ∧
      ∀ k : Int × Int, alGet m.elements k =
        match alGet L.reverse k with
        | some v => if v = 0 then none else some v
        | none => none := by
  rw [loadFromLines_header R C hR hC, loadElems_fmt_list L ⟨R, C, []⟩ 3 hb]
  refine ⟨_, rfl, setFold_rows _ _, setFold_cols _ _, ?_⟩
  intro k
  rw [setFold_alGet L ⟨R, C, []⟩ (by simp [SparseMatrix.keys]) k]
  cases hg : alGet L.reverse k with
  | some w => rfl
  | none => show alGet ([] : List ((Int × Int) × Int)) k = none; rfl

/-- Witness for C10: duplicate coordinate (0,1) set to 5 then 7, and
duplicate coordinate (0,0) set to 3 then 0, in a 2x2 matrix. -/
theorem C10_duplicates_last_wins_witness :
    ∃ m, loadFromLines (("rows=".data ++ intToChars 2) ::
        ("cols=".data ++ intToChars 2) ::
        ([((0, 1), 5), ((0, 1), 7), ((0, 0), 3), ((0, 0), 0)].map
          fmtEntry)) = Except.ok m ∧ m.rows = 2 ∧ m.cols = 2 ∧
      ∀ k : Int × Int, alGet m.elements k =
        match alGet ([((0, 1), 5), ((0, 1), 7), ((0, 0), 3),
            ((0, 0), 0)] : List ((Int × Int) × Int)).reverse k with
        | some v => if v = 0 then none else some v
        | none => none :=
  C10_duplicates_last_wins 2 2
    [((0, 1), 5), ((0, 1), 7), ((0, 0), 3), ((0, 0), 0)]
    (by decide) (by decide) (by decide)

/-- The claim of C7 is refuted on the code: loading a 2x2 header with the
out-of-bounds element line `(5,5,1)` fails, but the `except ValueError`
clause replaces the bounds-citing message with the generic
`Invalid number format` message, which does not cite the valid bound
range `[0,1] x [0,1]`. -/
theorem C7_counterexample :
    loadFromLines ["rows=2".data, "cols=2".data, "(5,5,1)".data] =
      Except.error ("Invalid number format at line 3: (5,5,1)".data) ∧
    ¬ List.IsInfix "[0,1]".data
      ("Invalid number format at line 3: (5,5,1)".data) := by
  constructor
  · decide
  · decide

theorem loadElems_fmt_cons_oob (m : SparseMatrix) (n : Nat)
    (p : (Int × Int) × Int) (rest : List (List Char))
    (hb : ¬(0 ≤ p.1.1 ∧ p.1.1 < m.rows ∧ 0 ≤ p.1.2 ∧ p.1.2 < m.cols)) :
    SparseMatrix.loadElems m n (fmtEntry p :: rest) =
      Except.error ("Invalid number format at line ".data
        ++ natToChars n ++ ": ".data ++ fmtEntry p) := by
  simp only [SparseMatrix.loadElems]
  rw [stripWs_fmtEntry]
  have hne : ¬fmtEntry p = [] := by rw [fmtEntry_eq]; simp
  rw [if_neg hne]
  have h1 : startsWith (fmtEntry p) "(".data = true := by
    rw [fmtEntry_eq]
    simp [startsWith, startsWith_nil]
  have h2 : startsWith (fmtEntry p).reverse ")".data = true := by
    rw [fmtEntry_eq]
    simp [startsWith, startsWith_nil]
  rw [h1, h2]
  simp only [Bool.and_self, Bool.not_true, Bool.false_eq_true, if_false]
  have h3 : (fmtEntry p).tail.dropLast = intToChars p.1.1 ++ ',' :: ' ' ::
      (intToChars p.1.2 ++ ',' :: ' ' :: intToChars p.2) := by
    rw [fmtEntry_eq, List.tail_cons, List.dropLast_concat]
  rw [h3, removeSpaces_inner, parseEntry_fmt]
  simp only [if_neg hb]

/-- C7 amended: for a source whose header parses to a non-negative
`rows x cols`, whose first element lines are well-formed in-bounds triples,
and whose next element line is a well-formed triple with an out-of-bounds
coordinate, from-source construction fails — but with the generic
`ValueError` message `Invalid number format at line N: <line>` naming the
1-based line number and the raw line text (the offending coordinates appear
only as part of that text); the bounds-citing `Invalid indices` message the
code builds inside the `try` is swallowed by the `except ValueError`
clause, so the valid bound range is not cited. -/
theorem C7_oob_line_generic_error (R C : Int)
    (good : List ((Int × Int) × Int)) (bad : (Int × Int) × Int)
    (tail : List (List Char)) (hR : 0 ≤ R) (hC : 0 ≤ C)
    (hgood : ∀ p ∈ good, 0 ≤ p.1.1 ∧ p.1.1 < R ∧ 0 ≤ p.1.2 ∧ p.1.2 < C)
    (hbad : ¬(0 ≤ bad.1.1 ∧ bad.1.1 < R ∧ 0 ≤ bad.1.2 ∧ bad.1.2 < C)) :
    loadFromLines (("rows=".data ++ intToChars R) ::
        ("cols=".data ++ intToChars C) ::
        (good.map fmtEntry ++ fmtEntry bad :: tail)) =
      Except.error ("Invalid number format at line ".data
        ++ natToChars (3 + good.length) ++ ": ".data ++ fmtEntry bad) := by
  rw [loadFromLines_header R C hR hC,
    loadElems_fmt_append good ⟨R, C, []⟩ 3 (fmtEntry bad :: tail) hgood]
  have hbad2 : ¬(0 ≤ bad.1.1 ∧
      bad.1.1 < (setFold ⟨R, C, []⟩ good).rows ∧ 0 ≤ bad.1.2 ∧
      bad.1.2 < (setFold ⟨R, C, []⟩ good).cols) := by
    rw [setFold_rows, setFold_cols]
    exact hbad
  rw [loadElems_fmt_cons_oob _ _ _ _ hbad2]

/-- Witness for the amended C7 at the spec's example: element line (5,5,1)
in a 2x2 matrix, reported at line 3. -/
theorem C7_oob_line_generic_error_witness :
    loadFromLines (("rows=".data ++ intToChars 2) ::
        ("cols=".data ++ intToChars 2) ::
        (([] : List ((Int × Int) × Int)).map fmtEntry ++
          fmtEntry ((5, 5), 1) :: [])) =
      Except.error ("Invalid number format at line ".data
        ++ natToChars (3 + ([] : List ((Int × Int) × Int)).length)
        ++ ": ".data ++ fmtEntry ((5, 5), 1)) :=
  C7_oob_line_generic_error 2 2 [] ((5, 5), 1) [] (by decide) (by decide)
    (by decide) (by decide)

/-! ### Statistics (claim C8) -/

theorem foldl_min_le_init (vs : List Int) :
    ∀ v : Int, vs.foldl min v ≤ v := by
  induction vs with
  | nil => intro v; simp
  | cons w ws ih =>
    intro v
    rw [List.foldl_cons]
    exact le_trans (ih (min v w)) (min_le_left v w)

theorem foldl_min_le_mem (vs : List Int) :
    ∀ v : Int, ∀ w ∈ vs, vs.foldl min v ≤ w := by
  induction vs with
  | nil => intro v w hw; simp at hw
  | cons x xs ih =>
    intro v w hw
    rw [List.foldl_cons]
    rcases List.mem_cons.1 hw with h | h
    · subst h
      exact le_trans (foldl_min_le_init xs (min v w)) (min_le_right v w)
    · exact ih (min v x) w h

theorem foldl_min_mem (vs : List Int) :
    ∀ v : Int, vs.foldl min v = v ∨ vs.foldl min v ∈ vs := by
  induction vs with
  | nil => intro v; left; rfl
  | cons x xs ih =>
    intro v
    rw [List.foldl_cons]
    rcases ih (min v x) with h | h
    · rw [h]
      rcases le_total v x with hle | hle
      · left
        exact min_eq_left hle
      · right
        rw [min_eq_right hle]
        simp
    · right
      simp [h]

theorem foldl_max_init_le (vs : List Int) :
    ∀ v : Int, v ≤ vs.foldl max v := by
  induction vs with
  | nil => intro v; simp
  | cons w ws ih =>
    intro v
    rw [List.foldl_cons]
    exact le_trans (le_max_left v w) (ih (max v w))

theorem foldl_max_mem_le (vs : List Int) :
    ∀ v : Int, ∀ w ∈ vs, w ≤ vs.foldl max v := by
  induction vs with
  | nil => intro v w hw; simp at hw
  | cons x xs ih =>
    intro v w hw
    rw [List.foldl_cons]
    rcases List.mem_cons.1 hw with h | h
    · subst h
      exact le_trans (le_max_right v w) (foldl_max_init_le xs (max v w))
    · exact ih (max v x) w h

theorem foldl_max_mem (vs : List Int) :
    ∀ v : Int, vs.foldl max v = v ∨ vs.foldl max v ∈ vs := by
  induction vs with
  | nil => intro v; left; rfl
  | cons x xs ih =>
    intro v
    rw [List.foldl_cons]
    rcases ih (max v x) with h | h
    · rw [h]
      rcases le_total v x with hle | hle
      · right
        rw [max_eq_right hle]
        simp
      · left
        exact max_eq_left hle
    · right
      simp [h]

/-- C8: `get_statistics` reports the dimensions, the stored-entry count,
the density `count / (rows*cols)` — exactly 0 when `rows*cols = 0`, with
no division performed — the minimum and maximum stored values when at
least one entry exists and `none` for both otherwise, and the total cell
count `rows*cols`; being a pure function, it does not modify the matrix. -/
theorem C8_statistics (m : SparseMatrix) :
    (m.get_statistics).dimensions = (m.rows, m.cols) ∧
    (m.get_statistics).non_zero_elements = m.elements.length ∧
    (m.rows * m.cols ≠ 0 → (m.get_statistics).density =
      (m.elements.length : ℚ) / ((m.rows * m.cols : Int) : ℚ)) ∧
    (m.rows * m.cols = 0 → (m.get_statistics).density = 0) ∧
    (m.elements ≠ [] → ∃ a, (m.get_statistics).min_value = some a ∧
      a ∈ m.elements.map Prod.snd ∧
      ∀ w ∈ m.elements.map Prod.snd, a ≤ w) ∧
    (m.elements ≠ [] → ∃ a, (m.get_statistics).max_value = some a ∧
      a ∈ m.elements.map Prod.snd ∧
      ∀ w ∈ m.elements.map Prod.snd, w ≤ a) ∧
    (m.elements = [] → (m.get_statistics).min_value = none ∧
      (m.get_statistics).max_value = none) ∧
    (m.get_statistics).total_elements = m.rows * m.cols := by
  by_cases he : m.elements = []
  · refine ⟨?_, ?_, ?_, ?_, ?_, ?_, ?_, ?_⟩
    · simp [SparseMatrix.get_statistics, he]
    · simp [SparseMatrix.get_statistics, he]
    · intro ht
      simp [SparseMatrix.get_statistics, he]
    · intro ht
      simp [SparseMatrix.get_statistics, he]
    · intro hne
      exact absurd he hne
    · intro hne
      exact absurd he hne
    · intro _
      constructor <;> simp [SparseMatrix.get_statistics, he]
    · simp [SparseMatrix.get_statistics, he]
  · have hmv : (m.get_statistics).min_value =
        listMin (m.elements.map Prod.snd) := by
      simp [SparseMatrix.get_statistics, he]
    have hxv : (m.get_statistics).max_value =
        listMax (m.elements.map Prod.snd) := by
      simp [SparseMatrix.get_statistics, he]
    refine ⟨?_, ?_, ?_, ?_, ?_, ?_, fun h => absurd h he, ?_⟩
    · simp [SparseMatrix.get_statistics, he]
    · simp [SparseMatrix.get_statistics, he]
    · intro ht
      simp [SparseMatrix.get_statistics, he, SparseMatrix.get_density, ht]
    · intro ht
      simp [SparseMatrix.get_statistics, he, SparseMatrix.get_density, ht]
    · intro _
      cases hv : m.elements.map Prod.snd with
      | nil => exact absurd (List.map_eq_nil_iff.1 hv) he
      | cons v vs =>
        refine ⟨vs.foldl min v, by rw [hmv, hv]; rfl, ?_, ?_⟩
        · rcases foldl_min_mem vs v with h | h
          · rw [h]
            simp
          · simp [h]
        · intro w hw
          rcases List.mem_cons.1 hw with h | h
          · rw [h]
            exact foldl_min_le_init vs v
          · exact foldl_min_le_mem vs v w h
    · intro _
      cases hv : m.elements.map Prod.snd with
      | nil => exact absurd (List.map_eq_nil_iff.1 hv) he
      | cons v vs =>
        refine ⟨vs.foldl max v, by rw [hxv, hv]; rfl, ?_, ?_⟩
        · rcases foldl_max_mem vs v with h | h
          · rw [h]
            simp
          · simp [h]
        · intro w hw
          rcases List.mem_cons.1 hw with h | h
          · rw [h]
            exact foldl_max_init_le vs v
          · exact foldl_max_mem_le vs v w h
    · simp [SparseMatrix.get_statistics, he]

/-- Witness for C8 at the empty 2x2 matrix of the spec's test list. -/
theorem C8_statistics_witness :
    ((SparseMatrix.mk 2 2 []).get_statistics).dimensions = (2, 2) ∧
    ((SparseMatrix.mk 2 2 []).get_statistics).non_zero_elements =
      (SparseMatrix.mk 2 2 []).elements.length ∧
    ((2 : Int) * 2 ≠ 0 →
      ((SparseMatrix.mk 2 2 []).get_statistics).density =
      (((SparseMatrix.mk 2 2 []).elements.length : ℚ)) /
        ((((2 : Int) * 2 : Int)) : ℚ)) ∧
    ((2 : Int) * 2 = 0 →
      ((SparseMatrix.mk 2 2 []).get_statistics).density = 0) ∧
    ((SparseMatrix.mk 2 2 []).elements ≠ [] → ∃ a,
      ((SparseMatrix.mk 2 2 []).get_statistics).min_value = some a ∧
      a ∈ (SparseMatrix.mk 2 2 []).elements.map Prod.snd ∧
      ∀ w ∈ (SparseMatrix.mk 2 2 []).elements.map Prod.snd, a ≤ w) ∧
    ((SparseMatrix.mk 2 2 []).elements ≠ [] → ∃ a,
      ((SparseMatrix.mk 2 2 []).get_statistics).max_value = some a ∧
      a ∈ (SparseMatrix.mk 2 2 []).elements.map Prod.snd ∧
      ∀ w ∈ (SparseMatrix.mk 2 2 []).elements.map Prod.snd, w ≤ a) ∧
    ((SparseMatrix.mk 2 2 []).elements = [] →
      ((SparseMatrix.mk 2 2 []).get_statistics).min_value = none ∧
      ((SparseMatrix.mk 2 2 []).get_statistics).max_value = none) ∧
    ((SparseMatrix.mk 2 2 []).get_statistics).total_elements =
      (2 : Int) * 2 :=
  C8_statistics ⟨2, 2, []⟩

/-! ### Save format and determinism (claim C9) -/

theorem entryLE_trans (a b c : (Int × Int) × Int)
    (h1 : entryLE a b = true) (h2 : entryLE b c = true) :
    entryLE a c = true := by
  simp only [entryLE, decide_eq_true_eq] at h1 h2 ⊢
  omega

theorem entryLE_total (a b : (Int × Int) × Int) :
    (entryLE a b || entryLE b a) = true := by
  simp only [entryLE, Bool.or_eq_true, decide_eq_true_eq]
  omega

theorem entryLE_antisymm (a b : (Int × Int) × Int)
    (h1 : entryLE a b = true) (h2 : entryLE b a = true) : a = b := by
  simp only [entryLE, decide_eq_true_eq] at h1 h2
  have h3 : a.1.1 = b.1.1 ∧ a.1.2 = b.1.2 ∧ a.2 = b.2 := by omega
  obtain ⟨⟨a1, a2⟩, a3⟩ := a
  obtain ⟨⟨b1, b2⟩, b3⟩ := b
  simp only at h3
  simp [h3.1, h3.2.1, h3.2.2]

/-- C9: `save` writes `rows=<rows>` then `cols=<cols>`, followed by one
rendered line per stored entry, the entries sorted in strictly ascending
lexicographic (row, col) order; and the output is a function of the
dimensions and the entry set only — matrices with equal dimensions and
permuted entry lists save to identical lines. -/
theorem C9_save_sorted_deterministic (m : SparseMatrix) (hWf : m.Wf) :
    ∃ sorted : List ((Int × Int) × Int),
      m.saveLines = ("rows=".data ++ intToChars m.rows) ::
        ("cols=".data ++ intToChars m.cols) :: sorted.map fmtEntry ∧
      sorted.Perm m.elements ∧
      sorted.Pairwise (fun p q => p.1.1 < q.1.1 ∨
        (p.1.1 = q.1.1 ∧ p.1.2 < q.1.2)) ∧
      (∀ m2 : SparseMatrix, m2.Wf → m2.rows = m.rows → m2.cols = m.cols →
        m2.elements.Perm m.elements → m2.saveLines = m.saveLines) := by
  refine ⟨m.elements.mergeSort entryLE, rfl,
    List.mergeSort_perm m.elements entryLE, ?_, ?_⟩
  · have hsorted : (m.elements.mergeSort entryLE).Pairwise
        (fun a b => entryLE a b = true) :=
      List.sorted_mergeSort entryLE_trans entryLE_total m.elements
    have hk : ((m.elements.mergeSort entryLE).map Prod.fst).Nodup := by
      have hkperm := (List.mergeSort_perm m.elements entryLE).map Prod.fst
      exact hkperm.nodup_iff.2 hWf.2.2.2
    have hnd : (m.elements.mergeSort entryLE).Pairwise
        (fun p q => p.1 ≠ q.1) := List.pairwise_map.1 hk
    refine (hsorted.and hnd).imp ?_
    intro a b hab
    obtain ⟨hle, hne⟩ := hab
    simp only [entryLE, decide_eq_true_eq] at hle
    rcases hle with h | ⟨h1, h2⟩
    · left
      exact h
    · rcases h2 with h | ⟨h2, _⟩
      · right
        exact ⟨h1, h⟩
      · exfalso
        apply hne
        have hae : a.1 = (a.1.1, a.1.2) := rfl
        rw [hae, h1, h2]
  · intro m2 hWf2 hr hc hperm
    have hsortedeq : m2.elements.mergeSort entryLE =
        m.elements.mergeSort entryLE := by
      have hanti : IsAntisymm ((Int × Int) × Int)
          (fun a b => entryLE a b = true) :=
        ⟨fun a b => entryLE_antisymm a b⟩
      exact @List.eq_of_perm_of_sorted _ (fun a b => entryLE a b = true)
        hanti _ _
        ((List.mergeSort_perm m2.elements entryLE).trans
          (hperm.trans (List.mergeSort_perm m.elements entryLE).symm))
        (List.sorted_mergeSort entryLE_trans entryLE_total m2.elements)
        (List.sorted_mergeSort entryLE_trans entryLE_total m.elements)
    unfold SparseMatrix.saveLines
    rw [hr, hc, hsortedeq]

/-- Witness for C9 at a 2x2 matrix with two entries inserted out of
order. -/
theorem C9_save_sorted_deterministic_witness :
    ∃ sorted : List ((Int × Int) × Int),
      (SparseMatrix.mk 2 2 [((0, 1), 4), ((0, 0), 3)]).saveLines =
        ("rows=".data ++ intToChars 2) ::
        ("cols=".data ++ intToChars 2) :: sorted.map fmtEntry ∧
      sorted.Perm (SparseMatrix.mk 2 2
        [((0, 1), 4), ((0, 0), 3)]).elements ∧
      sorted.Pairwise (fun p q => p.1.1 < q.1.1 ∨
        (p.1.1 = q.1.1 ∧ p.1.2 < q.1.2)) ∧
      (∀ m2 : SparseMatrix, m2.Wf →
        m2.rows = (SparseMatrix.mk 2 2 [((0, 1), 4), ((0, 0), 3)]).rows →
        m2.cols = (SparseMatrix.mk 2 2 [((0, 1), 4), ((0, 0), 3)]).cols →
        m2.elements.Perm (SparseMatrix.mk 2 2
          [((0, 1), 4), ((0, 0), 3)]).elements →
        m2.saveLines =
          (SparseMatrix.mk 2 2 [((0, 1), 4), ((0, 0), 3)]).saveLines) :=
  C9_save_sorted_deterministic ⟨2, 2, [((0, 1), 4), ((0, 0), 3)]⟩
    (by decide)

/-- Witness for C4: `set_element` on a well-formed empty 2x2 matrix
produces a well-formed matrix. -/
theorem C4_invariant_preserved_witness :
    (SparseMatrix.mk 2 2 [((0, 0), 5)]).Wf :=
  C4_invariant_preserved.2.2.1 ⟨2, 2, []⟩ 0 0 5 ⟨2, 2, [((0, 0), 5)]⟩
    (by decide) (by decide)
